import Mathlib

/-!
# kalshi-streaming: verification of the enrichment/deduplication pipeline

Shallow embedding of the pipeline logic of the `kalshi-streaming` repository:
the URL canonicalizer and news discovery script (`populate-news-collection.js`,
kept in the repository as an unnamed source part), the event/market sync engine
(`src/services/kalshiService.js`), and the thumbnail backfill engine
(`src/update-news-thumbnails.js`).

Strings are modelled as lists of characters (`Str`).  MongoDB collections are
modelled as lists of documents in insertion order; `findOne` / `updateOne`
operate on the first match, `insertOne` appends.  Timestamps are integers
(milliseconds); ISO-8601 string comparison in queries is order-isomorphic to
integer comparison, which is what the queries rely on.
-/

namespace KalshiStreaming

abbrev Str := List Char

def lowerStr (s : Str) : Str := s.map Char.toLower

/-- Characters the WHATWG URL parser accepts inside a scheme. -/
def isSchemeChar (c : Char) : Bool := c.isAlphanum || c == '+' || c == '-' || c == '.'

/-- Split `scheme://rest`: the scheme (validated character-wise) and what
follows the `://`.  `new URL(u)` rejects inputs without this shape (for the
special schemes the pipeline meets), which `normalizeUrl` turns into the
fail-closed branch. -/
def splitScheme : Str → Option (Str × Str)
  | [] => none
  | c :: rest =>
    if c = ':' then
      match rest with
      | '/' :: '/' :: r => some ([], r)
      | _ => none
    else if isSchemeChar c then
      match splitScheme rest with
      | some (sch, r) => some (c :: sch, r)
      | none => none
    else none

/-- Take characters until (excluding) the first stop character. -/
def takeUntil (stops : List Char) : Str → Str × Str
  | [] => ([], [])
  | c :: rest =>
    if c ∈ stops then ([], c :: rest)
    else
      let p := takeUntil stops rest
      (c :: p.1, p.2)

structure UrlParts where
  scheme : Str
  host : Str
  path : Str
  query : Str
  fragment : Str
  deriving Repr, DecidableEq

/-- Parse an absolute URL into its components, as `new URL` does: scheme and
host are lower-cased by the parser itself.  Userinfo/port are kept as part of
the host component and path percent-encoding is not modelled; neither is
consulted by the pipeline. -/
def parseUrl (u : Str) : Option UrlParts :=
  match splitScheme u with
  | none => none
  | some (sch, rest) =>
    match sch with
    | [] => none
    | c0 :: _ =>
      if c0.isAlpha then
        if (takeUntil ['/', '?', '#'] rest).1 = [] then none
        else
          match (takeUntil ['?', '#'] (takeUntil ['/', '?', '#'] rest).2).2 with
          | '?' :: r3 =>
            some ⟨lowerStr sch, lowerStr (takeUntil ['/', '?', '#'] rest).1,
                  (takeUntil ['?', '#'] (takeUntil ['/', '?', '#'] rest).2).1,
                  (takeUntil ['#'] r3).1,
                  match (takeUntil ['#'] r3).2 with | _ :: t => t | [] => []⟩
          | '#' :: r3 =>
            some ⟨lowerStr sch, lowerStr (takeUntil ['/', '?', '#'] rest).1,
                  (takeUntil ['?', '#'] (takeUntil ['/', '?', '#'] rest).2).1, [], r3⟩
          | _ =>
            some ⟨lowerStr sch, lowerStr (takeUntil ['/', '?', '#'] rest).1,
                  (takeUntil ['?', '#'] (takeUntil ['/', '?', '#'] rest).2).1, [], []⟩
      else none

/-- Split a string at the first occurrence of `stop`; `none` when absent. -/
def splitFirst (stop : Char) : Str → Str × Option Str
  | [] => ([], none)
  | c :: rest =>
    if c = stop then ([], some rest)
    else
      let p := splitFirst stop rest
      (c :: p.1, p.2)

/-- Split a raw query string on `&`, dropping empty segments
(`URLSearchParams` behaviour). -/
def splitOnAmpAux (acc : Str) : Str → List Str
  | [] => if acc = [] then [] else [acc]
  | c :: rest =>
    if c = '&' then
      if acc = [] then splitOnAmpAux [] rest else acc :: splitOnAmpAux [] rest
    else splitOnAmpAux (acc ++ [c]) rest

def splitOnAmp (q : Str) : List Str := splitOnAmpAux [] q

/-- The raw key of a `key=value` query segment. -/
def segKey (seg : Str) : Str := (splitFirst '=' seg).1

/-- The raw value of a `key=value` query segment (empty when no `=`). -/
def segVal (seg : Str) : Str :=
  match (splitFirst '=' seg).2 with
  | some v => v
  | none => []

def hexVal (c : Char) : Option Nat :=
  if '0' ≤ c ∧ c ≤ '9' then some (c.toNat - 48)
  else if 'a' ≤ c ∧ c ≤ 'f' then some (c.toNat - 87)
  else if 'A' ≤ c ∧ c ≤ 'F' then some (c.toNat - 55)
  else none

/-- Form-urlencoded decoding, used by `searchParams.get`: `+` is a space and
`%XX` (valid hex) a hex-coded character; anything else copies through. -/
def percentDecode : Str → Str
  | [] => []
  | '+' :: rest => ' ' :: percentDecode rest
  | '%' :: a :: b :: rest =>
    match hexVal a, hexVal b with
    | some ha, some hb => Char.ofNat (16 * ha + hb) :: percentDecode rest
    | _, _ => '%' :: percentDecode (a :: b :: rest)
  | c :: rest => c :: percentDecode rest

/-- `url.searchParams.get(name)`: decoded value of the first matching pair. -/
def getQueryParam (q : Str) (name : Str) : Option Str :=
  ((splitOnAmp q).find? fun seg => segKey seg == name).map fun seg =>
    percentDecode (segVal seg)

/-- The tracking parameters stripped by `normalizeUrl`. -/
def trackingParams : List Str :=
  ["utm_source", "utm_medium", "utm_campaign", "utm_term", "utm_content",
   "gclid", "fbclid", "ref"].map String.data

/-- `trackingParams.forEach(p => url.searchParams.delete(p))`. -/
def stripTrackingSegs (segs : List Str) : List Str :=
  segs.filter fun seg => !(trackingParams.contains (segKey seg))

def joinAmp : List Str → Str
  | [] => []
  | [s] => s
  | s :: rest => s ++ '&' :: joinAmp rest

/-- `url.toString()` after the mutations of `normalizeUrl`: hash cleared, the
query re-serialized from its remaining pairs (omitting `?` when none remain),
and the empty path printed as `/` as the URL serializer does. -/
def serializeUrl (scheme host path : Str) (segs : List Str) : Str :=
  scheme ++ ':' :: '/' :: '/' :: host ++
    (if path = [] then ['/'] else path) ++
    (if segs = [] then [] else '?' :: joinAmp segs)

def googleHost : Str := "news.google.com".data

def urlKey : Str := "url".data

/-- The non-redirector tail of `normalizeUrl`: strip tracking parameters,
lower-case the host, clear the fragment, serialize. -/
def finishNormalize (p : UrlParts) : Str :=
  serializeUrl p.scheme (lowerStr p.host) p.path
    (stripTrackingSegs (splitOnAmp p.query))

/-! ### Size lemmas, for the termination of the redirector unwrapping -/

theorem takeUntil_append (stops : List Char) (s : Str) :
    (takeUntil stops s).1 ++ (takeUntil stops s).2 = s := by
  induction s with
  | nil => simp [takeUntil]
  | cons c rest ih =>
    by_cases h : c ∈ stops
    · simp [takeUntil, h]
    · simp [takeUntil, h, ih]

theorem takeUntil_fst_length (stops : List Char) (s : Str) :
    (takeUntil stops s).1.length ≤ s.length := by
  have h := congrArg List.length (takeUntil_append stops s)
  simp [List.length_append] at h
  omega

theorem takeUntil_snd_length (stops : List Char) (s : Str) :
    (takeUntil stops s).2.length ≤ s.length := by
  have h := congrArg List.length (takeUntil_append stops s)
  simp [List.length_append] at h
  omega

theorem splitScheme_length : ∀ (u sch rest : Str),
    splitScheme u = some (sch, rest) → rest.length + 3 ≤ u.length := by
  intro u
  induction u with
  | nil => intro sch rest h; simp [splitScheme] at h
  | cons c cs ih =>
    intro sch rest h
    simp only [splitScheme] at h
    split at h
    · split at h
      · simp only [Option.some.injEq, Prod.mk.injEq] at h
        obtain ⟨-, h2⟩ := h
        subst h2
        simp
      · simp at h
    · split at h
      · split at h
        · rename_i sch1 r1 hrec
          simp only [Option.some.injEq, Prod.mk.injEq] at h
          obtain ⟨-, h2⟩ := h
          subst h2
          have := ih sch1 r1 hrec
          simp only [List.length_cons]
          omega
        · simp at h
      · simp at h

theorem splitFirst_some_length :
    ∀ (stop : Char) (s post : Str), (splitFirst stop s).2 = some post →
      post.length < s.length := by
  intro stop s
  induction s with
  | nil => intro post h; simp [splitFirst] at h
  | cons c rest ih =>
    intro post h
    simp only [splitFirst] at h
    split at h
    · simp at h
      subst h
      simp
    · have := ih post h
      simp
      omega

theorem segVal_length (seg : Str) : (segVal seg).length ≤ seg.length := by
  unfold segVal
  cases h : (splitFirst '=' seg).2 with
  | none => simp
  | some v => simpa using Nat.le_of_lt (splitFirst_some_length '=' seg v h)

theorem splitOnAmpAux_mem_length : ∀ (s acc seg : Str),
    seg ∈ splitOnAmpAux acc s → seg.length ≤ acc.length + s.length := by
  intro s
  induction s with
  | nil =>
    intro acc seg h
    simp only [splitOnAmpAux] at h
    split at h
    · simp at h
    · simp at h
      subst h
      simp
  | cons c rest ih =>
    intro acc seg h
    simp only [splitOnAmpAux] at h
    split at h
    · split at h
      · have := ih [] seg h
        simp at this
        simp
        omega
      · rcases List.mem_cons.mp h with h1 | h2
        · subst h1; simp
        · have := ih [] seg h2
          simp at this
          simp
          omega
    · have := ih (acc ++ [c]) seg h
      simp [List.length_append] at this
      simp
      omega

theorem percentDecode_length (s : Str) : (percentDecode s).length ≤ s.length := by
  induction s using percentDecode.induct with
  | case1 => simp [percentDecode]
  | case2 rest ih => simp [percentDecode]; omega
  | case3 a b rest ha hb hha hhb ih =>
    simp [percentDecode, hha, hhb]
    omega
  | case4 a b rest hnot ih =>
    simp only [percentDecode]
    cases hha : hexVal a with
    | some ha =>
      cases hhb : hexVal b with
      | some hb => exact (hnot ha hb hha hhb).elim
      | none => simp at ih ⊢; omega
    | none => simp at ih ⊢; omega
  | case5 c rest h1 h2 ih => simp [percentDecode]; omega

theorem getQueryParam_length (q name v : Str) (h : getQueryParam q name = some v) :
    v.length ≤ q.length := by
  unfold getQueryParam at h
  cases hf : (splitOnAmp q).find? (fun seg => segKey seg == name) with
  | none => rw [hf] at h; simp at h
  | some seg =>
    rw [hf] at h
    simp at h
    subst h
    have hm := List.mem_of_find?_eq_some hf
    have h1 := splitOnAmpAux_mem_length q [] seg hm
    have h2 := segVal_length seg
    have h3 := percentDecode_length (segVal seg)
    simp at h1
    omega

theorem parseUrl_query_length (u : Str) (p : UrlParts) (h : parseUrl u = some p) :
    p.query.length < u.length := by
  unfold parseUrl at h
  cases hs : splitScheme u with
  | none => rw [hs] at h; simp at h
  | some sr =>
    obtain ⟨sch, rest⟩ := sr
    rw [hs] at h
    have hlen := splitScheme_length u sch rest hs
    cases sch with
    | nil => simp at h
    | cons c0 cs =>
      simp only at h
      split at h
      · split at h
        · simp at h
        · have l2 : (takeUntil ['?', '#'] (takeUntil ['/', '?', '#'] rest).2).2.length
              ≤ rest.length :=
            Nat.le_trans (takeUntil_snd_length _ _) (takeUntil_snd_length _ _)
          split at h
          · rename_i r3 heq
            rw [Option.some.injEq] at h
            subst h
            have l1 : (takeUntil ['#'] r3).1.length ≤ r3.length :=
              takeUntil_fst_length _ _
            rw [heq] at l2
            simp only [List.length_cons] at l2
            simp only []
            omega
          · rename_i r3 heq
            rw [Option.some.injEq] at h
            subst h
            simp only [List.length_nil]
            omega
          · rw [Option.some.injEq] at h
            subst h
            simp only [List.length_nil]
            omega
      · simp at h

/-- `normalizeUrl` from the news discovery script: unwrap the
`news.google.com` redirector (recursively, via the decoded `url` query
parameter), strip tracking parameters, lower-case the host, drop the
fragment, and return the input unchanged when URL parsing fails. -/
def normalizeUrl (u : Str) : Str :=
  match hp : parseUrl u with
  | none => u
  | some p =>
    if p.host = googleHost then
      match hq : getQueryParam p.query urlKey with
      | some inner =>
        if inner = [] then finishNormalize p else normalizeUrl inner
      | none => finishNormalize p
    else finishNormalize p
termination_by u.length
decreasing_by
  have h1 := parseUrl_query_length u p hp
  have h2 := getQueryParam_length p.query urlKey inner hq
  omega

/-! ### Character-case lemmas (ASCII lower-casing) -/

theorem toNat_ofNat_valid (n : Nat) (h : n.isValidChar) : (Char.ofNat n).toNat = n := by
  rw [Char.ofNat, dif_pos h]
  rfl

theorem toLower_eq_or_range (c : Char) :
    c.toLower = c ∨ (97 ≤ c.toLower.toNat ∧ c.toLower.toNat ≤ 122) := by
  simp only [Char.toLower]
  by_cases h : c.toNat ≥ 65 ∧ c.toNat ≤ 90
  · right
    rw [if_pos h]
    rw [toNat_ofNat_valid (c.toNat + 32) (Or.inl (by omega))]
    omega
  · left
    rw [if_neg h]

theorem toLower_of_not_upper (d : Char) (h : ¬(65 ≤ d.toNat ∧ d.toNat ≤ 90)) :
    d.toLower = d := by
  simp only [Char.toLower]
  rw [if_neg (by omega)]

theorem toLower_toLower (c : Char) : c.toLower.toLower = c.toLower := by
  rcases toLower_eq_or_range c with h | h
  · simp only [h]
  · exact toLower_of_not_upper c.toLower (by omega)

theorem isUpper_iff (c : Char) : c.isUpper = true ↔ (65 ≤ c.toNat ∧ c.toNat ≤ 90) := by
  simp [Char.isUpper, Char.toNat, UInt32.le_def, BitVec.le_def, UInt32.toNat]

theorem isLower_iff (c : Char) : c.isLower = true ↔ (97 ≤ c.toNat ∧ c.toNat ≤ 122) := by
  simp [Char.isLower, Char.toNat, UInt32.le_def, BitVec.le_def, UInt32.toNat]

theorem isAlpha_toLower (c : Char) (h : c.isAlpha = true) : c.toLower.isAlpha = true := by
  rcases toLower_eq_or_range c with he | hr
  · rw [he]; exact h
  · simp only [Char.isAlpha, Bool.or_eq_true]
    right
    exact (isLower_iff c.toLower).mpr hr

theorem isSchemeChar_toLower (c : Char) (h : isSchemeChar c = true) :
    isSchemeChar c.toLower = true := by
  rcases toLower_eq_or_range c with he | hr
  · rw [he]; exact h
  · have hl : c.toLower.isLower = true := (isLower_iff c.toLower).mpr hr
    simp [isSchemeChar, Char.isAlphanum, Char.isAlpha, hl]

/-- If the lower-casing of `c` is one of the URL delimiter characters, then
`c` was already that character (delimiters are not images of upper-case
letters). -/
theorem toLower_mem_delims (c : Char) (stops : List Char)
    (hstops : ∀ d ∈ stops, d.toNat < 97) (h : c.toLower ∈ stops) : c ∈ stops := by
  rcases toLower_eq_or_range c with he | hr
  · rwa [he] at h
  · have := hstops c.toLower h
    omega

/-! ### `takeUntil` and `splitScheme` roundtrips -/

theorem takeUntil_fst_noneOf (stops : List Char) (s : Str) :
    ∀ c ∈ (takeUntil stops s).1, c ∉ stops := by
  induction s with
  | nil => simp [takeUntil]
  | cons c rest ih =>
    by_cases h : c ∈ stops
    · simp [takeUntil, h]
    · simp only [takeUntil, if_neg h]
      intro d hd
      rcases List.mem_cons.mp hd with h1 | h2
      · subst h1; exact h
      · exact ih d h2

theorem takeUntil_snd_cases (stops : List Char) (s : Str) :
    (takeUntil stops s).2 = [] ∨
      ∃ c r, (takeUntil stops s).2 = c :: r ∧ c ∈ stops := by
  induction s with
  | nil => simp [takeUntil]
  | cons c rest ih =>
    by_cases h : c ∈ stops
    · right; exact ⟨c, rest, by simp [takeUntil, h], h⟩
    · simpa [takeUntil, h] using ih

theorem takeUntil_of_append (stops : List Char) (pre post : Str)
    (hpre : ∀ c ∈ pre, c ∉ stops)
    (hpost : post = [] ∨ ∃ c r, post = c :: r ∧ c ∈ stops) :
    takeUntil stops (pre ++ post) = (pre, post) := by
  induction pre with
  | nil =>
    rcases hpost with h | ⟨c, r, hcr, hc⟩
    · subst h; simp [takeUntil]
    · subst hcr; simp [takeUntil, hc]
  | cons c pre1 ih =>
    have hc : c ∉ stops := hpre c (by simp)
    have := ih fun d hd => hpre d (by simp [hd])
    simp [takeUntil, hc, this]

theorem isSchemeChar_ne_colon (c : Char) (h : isSchemeChar c = true) : c ≠ ':' := by
  intro he
  subst he
  simp [isSchemeChar, Char.isAlphanum, Char.isAlpha, isUpper_iff, isLower_iff,
    Char.isDigit, Char.toNat, UInt32.le_def, BitVec.le_def, UInt32.toNat] at h

theorem splitScheme_of_append (sch r : Str) (hsch : ∀ c ∈ sch, isSchemeChar c = true) :
    splitScheme (sch ++ ':' :: '/' :: '/' :: r) = some (sch, r) := by
  induction sch with
  | nil => simp [splitScheme]
  | cons c sch1 ih =>
    have hc : isSchemeChar c = true := hsch c (by simp)
    have hne : c ≠ ':' := isSchemeChar_ne_colon c hc
    have := ih fun d hd => hsch d (by simp [hd])
    simp [splitScheme, hne, hc, this]

/-! ### Query segment lemmas -/

theorem splitOnAmpAux_mem : ∀ (s acc seg : Str),
    (∀ c ∈ acc, c ≠ '&') →
    seg ∈ splitOnAmpAux acc s →
    seg ≠ [] ∧ (∀ c ∈ seg, c ≠ '&') ∧ (∀ c ∈ seg, c ∈ acc ∨ c ∈ s) := by
  intro s
  induction s with
  | nil =>
    intro acc seg hacc h
    simp only [splitOnAmpAux] at h
    split at h
    · simp at h
    · simp at h
      subst h
      rename_i hne
      exact ⟨hne, hacc, fun c hc => Or.inl hc⟩
  | cons c rest ih =>
    intro acc seg hacc h
    simp only [splitOnAmpAux] at h
    split at h
    · split at h
      · have := ih [] seg (by simp) h
        exact ⟨this.1, this.2.1, fun d hd =>
          (this.2.2 d hd).elim (by simp) fun h2 => Or.inr (by simp [h2])⟩
      · rcases List.mem_cons.mp h with h1 | h2
        · subst h1
          rename_i hne
          exact ⟨hne, hacc, fun d hd => Or.inl hd⟩
        · have := ih [] seg (by simp) h2
          exact ⟨this.1, this.2.1, fun d hd =>
            (this.2.2 d hd).elim (by simp) fun hx => Or.inr (by simp [hx])⟩
    · rename_i hamp
      have hacc2 : ∀ d ∈ acc ++ [c], d ≠ '&' := by
        intro d hd
        rcases List.mem_append.mp hd with h1 | h2
        · exact hacc d h1
        · simp at h2
          subst h2
          simpa using hamp
      have := ih (acc ++ [c]) seg hacc2 h
      refine ⟨this.1, this.2.1, fun d hd => ?_⟩
      rcases this.2.2 d hd with h1 | h2
      · rcases List.mem_append.mp h1 with ha | hb
        · exact Or.inl ha
        · simp at hb
          subst hb
          exact Or.inr (by simp)
      · exact Or.inr (by simp [h2])

theorem splitOnAmpAux_through : ∀ (pre acc s : Str), (∀ c ∈ pre, c ≠ '&') →
    splitOnAmpAux acc (pre ++ s) = splitOnAmpAux (acc ++ pre) s := by
  intro pre
  induction pre with
  | nil => intro acc s h; simp
  | cons c pre1 ih =>
    intro acc s h
    have hc : c ≠ '&' := h c (by simp)
    simp only [List.cons_append, splitOnAmpAux, if_neg hc, List.append_eq]
    rw [ih (acc ++ [c]) s fun d hd => h d (by simp [hd])]
    simp

theorem splitOnAmp_joinAmp : ∀ segs : List Str,
    (∀ seg ∈ segs, seg ≠ [] ∧ ∀ c ∈ seg, c ≠ '&') →
    splitOnAmp (joinAmp segs) = segs := by
  intro segs
  induction segs with
  | nil => simp [splitOnAmp, joinAmp, splitOnAmpAux]
  | cons seg rest ih =>
    intro h
    have hseg := h seg (by simp)
    cases rest with
    | nil =>
      simp only [joinAmp]
      unfold splitOnAmp
      have hthr := splitOnAmpAux_through seg [] [] hseg.2
      simp only [List.append_nil, List.nil_append] at hthr
      rw [hthr]
      simp [splitOnAmpAux, hseg.1]
    | cons seg2 rest2 =>
      simp only [joinAmp]
      unfold splitOnAmp
      rw [splitOnAmpAux_through seg [] ('&' :: joinAmp (seg2 :: rest2)) hseg.2]
      simp only [List.nil_append]
      rw [splitOnAmpAux]
      have := ih fun s hs => h s (by simp [hs])
      unfold splitOnAmp at this
      rw [this]
      simp [hseg.1]

theorem joinAmp_mem : ∀ (segs : List Str) (c : Char), c ∈ joinAmp segs →
    c = '&' ∨ ∃ seg, seg ∈ segs ∧ c ∈ seg := by
  intro segs
  induction segs with
  | nil => simp [joinAmp]
  | cons seg rest ih =>
    intro c hc
    cases rest with
    | nil =>
      right
      exact ⟨seg, by simp, by simpa [joinAmp] using hc⟩
    | cons s2 r2 =>
      simp only [joinAmp] at hc
      rcases List.mem_append.mp hc with h1 | h2
      · right; exact ⟨seg, by simp, h1⟩
      · rcases List.mem_cons.mp h2 with h3 | h4
        · left; exact h3
        · rcases ih c h4 with h5 | ⟨sg, hsg, hcs⟩
          · left; exact h5
          · right; exact ⟨sg, by simp [hsg], hcs⟩

theorem find?_filter_of_imp (p q : Str → Bool) (l : List Str)
    (himp : ∀ x, p x = true → q x = true) :
    (l.filter q).find? p = l.find? p := by
  induction l with
  | nil => simp
  | cons x rest ih =>
    by_cases hp : p x
    · have hq := himp x hp
      simp [List.filter_cons, hq, hp, List.find?_cons_of_pos]
    · by_cases hq : q x
      · rw [List.filter_cons, if_pos hq, List.find?_cons_of_neg _ (by simp [hp]),
          List.find?_cons_of_neg _ (by simp [hp]), ih]
      · rw [List.filter_cons, if_neg hq, List.find?_cons_of_neg _ (by simp [hp]), ih]

theorem lowerStr_idem (s : Str) : lowerStr (lowerStr s) = lowerStr s := by
  simp only [lowerStr, List.map_map]
  exact List.map_congr_left fun c _ => toLower_toLower c

theorem lowerStr_ne_nil (s : Str) (h : s ≠ []) : lowerStr s ≠ [] := by
  cases s with
  | nil => exact absurd rfl h
  | cons c rest => simp [lowerStr]

theorem splitScheme_chars : ∀ (u sch rest : Str), splitScheme u = some (sch, rest) →
    ∀ c ∈ sch, isSchemeChar c = true := by
  intro u
  induction u with
  | nil => intro sch rest h; simp [splitScheme] at h
  | cons c cs ih =>
    intro sch rest h
    simp only [splitScheme] at h
    split at h
    · split at h
      · simp only [Option.some.injEq, Prod.mk.injEq] at h
        obtain ⟨h1, -⟩ := h
        subst h1
        simp
      · simp at h
    · split at h
      · rename_i hsc
        split at h
        · rename_i sch1 r1 hrec
          simp only [Option.some.injEq, Prod.mk.injEq] at h
          obtain ⟨h1, -⟩ := h
          subst h1
          intro d hd
          rcases List.mem_cons.mp hd with h2 | h3
          · subst h2; exact hsc
          · exact ih sch1 r1 hrec d h3
        · simp at h
      · simp at h

/-- The well-formedness facts that hold of every successfully parsed URL. -/
structure UrlWF (p : UrlParts) : Prop where
  scheme_ne : p.scheme ≠ []
  scheme_alpha : ∃ c0 cs, p.scheme = c0 :: cs ∧ c0.isAlpha = true
  scheme_chars : ∀ c ∈ p.scheme, isSchemeChar c = true
  scheme_lower : lowerStr p.scheme = p.scheme
  host_ne : p.host ≠ []
  host_chars : ∀ c ∈ p.host, c ∉ ['/', '?', '#']
  host_lower : lowerStr p.host = p.host
  path_chars : ∀ c ∈ p.path, c ∉ ['?', '#']
  path_head : p.path = [] ∨ ∃ t, p.path = '/' :: t
  query_chars : ∀ c ∈ p.query, c ≠ '#'

theorem lowerStr_mem (s : Str) (c : Char) (h : c ∈ lowerStr s) :
    ∃ d ∈ s, c = d.toLower := by
  simp only [lowerStr, List.mem_map] at h
  obtain ⟨d, hd, he⟩ := h
  exact ⟨d, hd, he.symm⟩

theorem delims_toNat_small : ∀ d ∈ ['/', '?', '#'], d.toNat < 97 := by decide

/-- The components produced by a successful parse are well-formed. -/
theorem parseUrl_wf (u : Str) (p : UrlParts) (h : parseUrl u = some p) : UrlWF p := by
  unfold parseUrl at h
  cases hs : splitScheme u with
  | none => rw [hs] at h; simp at h
  | some sr =>
    obtain ⟨sch, rest⟩ := sr
    rw [hs] at h
    have hchars := splitScheme_chars u sch rest hs
    cases sch with
    | nil => simp at h
    | cons c0 cs =>
      simp only at h
      split at h
      case isFalse => simp at h
      case isTrue halpha =>
        split at h
        case isTrue => simp at h
        case isFalse hauth =>
          -- facts shared by the three query branches
          have hs_ne : lowerStr (c0 :: cs) ≠ [] := by simp [lowerStr]
          have hs_alpha : ∃ d ds, lowerStr (c0 :: cs) = d :: ds ∧ d.isAlpha = true :=
            ⟨c0.toLower, lowerStr cs, by simp [lowerStr], isAlpha_toLower c0 halpha⟩
          have hs_chars : ∀ c ∈ lowerStr (c0 :: cs), isSchemeChar c = true := by
            intro c hc
            obtain ⟨d, hd, he⟩ := lowerStr_mem _ c hc
            subst he
            exact isSchemeChar_toLower d (hchars d hd)
          have hh_ne : lowerStr (takeUntil ['/', '?', '#'] rest).1 ≠ [] :=
            lowerStr_ne_nil _ hauth
          have hh_chars : ∀ c ∈ lowerStr (takeUntil ['/', '?', '#'] rest).1,
              c ∉ ['/', '?', '#'] := by
            intro c hc hmem
            obtain ⟨d, hd, he⟩ := lowerStr_mem _ c hc
            subst he
            exact takeUntil_fst_noneOf _ _ d hd
              (toLower_mem_delims d _ delims_toNat_small hmem)
          have hp_chars : ∀ c ∈ (takeUntil ['?', '#'] (takeUntil ['/', '?', '#'] rest).2).1,
              c ∉ ['?', '#'] := takeUntil_fst_noneOf _ _
          have hp_head : (takeUntil ['?', '#'] (takeUntil ['/', '?', '#'] rest).2).1 = [] ∨
              ∃ t, (takeUntil ['?', '#'] (takeUntil ['/', '?', '#'] rest).2).1 = '/' :: t := by
            rcases takeUntil_snd_cases ['/', '?', '#'] rest with h0 | ⟨c, r, heq, hc⟩
            · rw [h0]; left; simp [takeUntil]
            · rw [heq]
              rcases (by simpa using hc : c = '/' ∨ c = '?' ∨ c = '#') with h1 | h1 | h1
              · subst h1
                right
                exact ⟨(takeUntil ['?', '#'] r).1, by simp [takeUntil]⟩
              · subst h1; left; simp [takeUntil]
              · subst h1; left; simp [takeUntil]
          split at h
          · rename_i r3 heq
            rw [Option.some.injEq] at h
            subst h
            exact ⟨hs_ne, hs_alpha, hs_chars, lowerStr_idem _, hh_ne, hh_chars,
              lowerStr_idem _, hp_chars, hp_head, by
                intro c hc
                have := takeUntil_fst_noneOf ['#'] r3 c hc
                simpa using this⟩
          · rename_i r3 heq
            rw [Option.some.injEq] at h
            subst h
            exact ⟨hs_ne, hs_alpha, hs_chars, lowerStr_idem _, hh_ne, hh_chars,
              lowerStr_idem _, hp_chars, hp_head, by simp⟩
          · rw [Option.some.injEq] at h
            subst h
            exact ⟨hs_ne, hs_alpha, hs_chars, lowerStr_idem _, hh_ne, hh_chars,
              lowerStr_idem _, hp_chars, hp_head, by simp⟩

/-- Parsing a serialized URL recovers its components. -/
theorem parseUrl_serializeUrl (sch host path : Str) (segs : List Str)
    (hsch_alpha : ∃ c0 cs, sch = c0 :: cs ∧ c0.isAlpha = true)
    (hsch_chars : ∀ c ∈ sch, isSchemeChar c = true)
    (hsch_lower : lowerStr sch = sch)
    (hhost_ne : host ≠ [])
    (hhost : ∀ c ∈ host, c ∉ ['/', '?', '#'])
    (hhost_lower : lowerStr host = host)
    (hpath : ∀ c ∈ path, c ∉ ['?', '#'])
    (hpath_head : path = [] ∨ ∃ t, path = '/' :: t)
    (hsegs : ∀ seg ∈ segs, seg ≠ [] ∧ ∀ c ∈ seg, c ≠ '&' ∧ c ≠ '#') :
    parseUrl (serializeUrl sch host path segs) =
      some ⟨sch, host, (if path = [] then ['/'] else path),
            (if segs = [] then [] else joinAmp segs), []⟩ := by
  have hshape : serializeUrl sch host path segs =
      sch ++ ':' :: '/' :: '/' ::
        (host ++ ((if path = [] then ['/'] else path) ++
          (if segs = [] then [] else '?' :: joinAmp segs))) := by
    unfold serializeUrl
    simp [List.append_assoc]
  have h1 : takeUntil ['/', '?', '#']
      (host ++ ((if path = [] then ['/'] else path) ++
        (if segs = [] then [] else '?' :: joinAmp segs))) =
      (host, (if path = [] then ['/'] else path) ++
        (if segs = [] then [] else '?' :: joinAmp segs)) := by
    apply takeUntil_of_append _ _ _ hhost
    right
    rcases hpath_head with hp | ⟨t, hp⟩
    · exact ⟨'/', (if segs = [] then [] else '?' :: joinAmp segs), by simp [hp], by simp⟩
    · refine ⟨'/', t ++ (if segs = [] then [] else '?' :: joinAmp segs), ?_, by simp⟩
      rw [hp]
      simp [hp]
  have h2 : takeUntil ['?', '#']
      ((if path = [] then ['/'] else path) ++
        (if segs = [] then [] else '?' :: joinAmp segs)) =
      ((if path = [] then ['/'] else path),
        (if segs = [] then [] else '?' :: joinAmp segs)) := by
    apply takeUntil_of_append
    · intro c hc
      split at hc
      · simp at hc
        subst hc
        decide
      · exact hpath c hc
    · by_cases hs0 : segs = []
      · left; simp [hs0]
      · right
        exact ⟨'?', joinAmp segs, by simp [hs0], by simp⟩
  have h3 : takeUntil ['#'] (joinAmp segs) = (joinAmp segs, []) := by
    have hnone : ∀ c ∈ joinAmp segs, c ∉ ['#'] := by
      intro c hc hmem
      simp only [List.mem_singleton] at hmem
      subst hmem
      rcases joinAmp_mem segs '#' hc with h4 | ⟨seg, hseg, hcs⟩
      · exact absurd h4 (by decide)
      · exact ((hsegs seg hseg).2 '#' hcs).2 rfl
    have := takeUntil_of_append ['#'] (joinAmp segs) [] hnone (Or.inl rfl)
    simpa using this
  obtain ⟨c0, cs, hsch_eq, hc0⟩ := hsch_alpha
  rw [hshape]
  unfold parseUrl
  rw [splitScheme_of_append sch _ hsch_chars]
  subst hsch_eq
  simp only [hc0, if_true, h1, h2, if_neg hhost_ne]
  by_cases hs0 : segs = []
  · subst hs0
    simp only [if_pos rfl]
    rw [hsch_lower, hhost_lower]
    simp
  · simp only [if_neg hs0, h3]
    rw [hsch_lower, hhost_lower]

/-! ### Case equations for `normalizeUrl` -/

theorem normalizeUrl_parse_none (u : Str) (h : parseUrl u = none) :
    normalizeUrl u = u := by
  unfold normalizeUrl
  split
  · rfl
  · rename_i p hp
    rw [h] at hp
    exact absurd hp (by simp)

theorem normalizeUrl_parse_google (u : Str) (p : UrlParts) (inner : Str)
    (h : parseUrl u = some p) (hg : p.host = googleHost)
    (hq : getQueryParam p.query urlKey = some inner) (hne : inner ≠ []) :
    normalizeUrl u = normalizeUrl inner := by
  conv_lhs => unfold normalizeUrl
  split
  · rename_i hp
    rw [h] at hp
    exact absurd hp (by simp)
  · rename_i p2 hp
    rw [h, Option.some.injEq] at hp
    subst hp
    rw [if_pos hg]
    split
    · rename_i inner2 hq2
      rw [hq, Option.some.injEq] at hq2
      subst hq2
      rw [if_neg hne]
    · rename_i hq2
      rw [hq] at hq2
      exact absurd hq2 (by simp)

theorem normalizeUrl_parse_finish (u : Str) (p : UrlParts)
    (h : parseUrl u = some p)
    (hfin : p.host = googleHost →
      getQueryParam p.query urlKey = none ∨ getQueryParam p.query urlKey = some []) :
    normalizeUrl u = finishNormalize p := by
  conv_lhs => unfold normalizeUrl
  split
  · rename_i hp
    rw [h] at hp
    exact absurd hp (by simp)
  · rename_i p2 hp
    rw [h, Option.some.injEq] at hp
    subst hp
    by_cases hg : p.host = googleHost
    · rw [if_pos hg]
      rcases hfin hg with h1 | h1
      · split
        · rename_i inner2 hq2
          rw [h1] at hq2
          exact absurd hq2 (by simp)
        · rfl
      · split
        · rename_i inner2 hq2
          rw [h1, Option.some.injEq] at hq2
          subst hq2
          rw [if_pos rfl]
        · rename_i hq2
          rw [h1] at hq2
    · rw [if_neg hg]

theorem splitOnAmp_segs_wf (q : Str) :
    ∀ seg ∈ splitOnAmp q, seg ≠ [] ∧ ∀ c ∈ seg, c ≠ '&' := by
  intro seg h
  have := splitOnAmpAux_mem q [] seg (by simp) h
  exact ⟨this.1, this.2.1⟩

theorem splitOnAmp_of_stripped (q : Str) :
    splitOnAmp (if stripTrackingSegs (splitOnAmp q) = [] then []
      else joinAmp (stripTrackingSegs (splitOnAmp q))) =
    stripTrackingSegs (splitOnAmp q) := by
  by_cases h : stripTrackingSegs (splitOnAmp q) = []
  · rw [if_pos h, h]
    rfl
  · rw [if_neg h]
    apply splitOnAmp_joinAmp
    intro seg hseg
    exact splitOnAmp_segs_wf q seg (List.mem_of_mem_filter hseg)

theorem urlKey_not_tracking :
    ∀ x : Str, (segKey x == urlKey) = true →
      (!trackingParams.contains (segKey x)) = true := by
  intro x hx
  have h : segKey x = urlKey := by simpa using hx
  rw [h]
  decide

theorem getQueryParam_finish (q : Str) :
    getQueryParam (if stripTrackingSegs (splitOnAmp q) = [] then []
      else joinAmp (stripTrackingSegs (splitOnAmp q))) urlKey =
    getQueryParam q urlKey := by
  unfold getQueryParam
  rw [splitOnAmp_of_stripped]
  unfold stripTrackingSegs
  rw [find?_filter_of_imp _ _ _ urlKey_not_tracking]

theorem stripTrackingSegs_idem (segs : List Str) :
    stripTrackingSegs (stripTrackingSegs segs) = stripTrackingSegs segs := by
  unfold stripTrackingSegs
  exact List.filter_eq_self.mpr fun a ha => (List.mem_filter.mp ha).2

/-- The output of the non-redirector branch of `normalizeUrl` is a fixed
point of `normalizeUrl`. -/
theorem normalizeUrl_finish_fix (p : UrlParts) (hwf : UrlWF p)
    (hfin : p.host = googleHost →
      getQueryParam p.query urlKey = none ∨ getQueryParam p.query urlKey = some []) :
    normalizeUrl (finishNormalize p) = finishNormalize p := by
  have hsegs : ∀ seg ∈ stripTrackingSegs (splitOnAmp p.query),
      seg ≠ [] ∧ ∀ c ∈ seg, c ≠ '&' ∧ c ≠ '#' := by
    intro seg hseg
    have hmem := List.mem_of_mem_filter hseg
    have h1 := splitOnAmpAux_mem p.query [] seg (by simp) hmem
    refine ⟨h1.1, fun c hc => ⟨h1.2.1 c hc, ?_⟩⟩
    rcases h1.2.2 c hc with h0 | h0
    · simp at h0
    · exact hwf.query_chars c h0
  have hfin_eq : finishNormalize p =
      serializeUrl p.scheme p.host p.path (stripTrackingSegs (splitOnAmp p.query)) := by
    unfold finishNormalize
    rw [hwf.host_lower]
  have hparse := parseUrl_serializeUrl p.scheme p.host p.path
      (stripTrackingSegs (splitOnAmp p.query))
      hwf.scheme_alpha hwf.scheme_chars hwf.scheme_lower hwf.host_ne hwf.host_chars
      hwf.host_lower hwf.path_chars hwf.path_head hsegs
  have hfin2 : (⟨p.scheme, p.host, (if p.path = [] then ['/'] else p.path),
      (if stripTrackingSegs (splitOnAmp p.query) = [] then []
        else joinAmp (stripTrackingSegs (splitOnAmp p.query))), []⟩ : UrlParts).host =
        googleHost →
      getQueryParam (⟨p.scheme, p.host, (if p.path = [] then ['/'] else p.path),
        (if stripTrackingSegs (splitOnAmp p.query) = [] then []
          else joinAmp (stripTrackingSegs (splitOnAmp p.query))), []⟩ : UrlParts).query
        urlKey = none ∨
      getQueryParam (⟨p.scheme, p.host, (if p.path = [] then ['/'] else p.path),
        (if stripTrackingSegs (splitOnAmp p.query) = [] then []
          else joinAmp (stripTrackingSegs (splitOnAmp p.query))), []⟩ : UrlParts).query
        urlKey = some [] := by
    intro hg
    simp only [] at hg ⊢
    rw [getQueryParam_finish]
    exact hfin hg
  rw [hfin_eq, normalizeUrl_parse_finish _ _ hparse hfin2]
  unfold finishNormalize
  simp only []
  rw [splitOnAmp_of_stripped, stripTrackingSegs_idem, hwf.host_lower]
  unfold serializeUrl
  by_cases hp0 : p.path = []
  · simp [hp0]
  · simp [hp0]

theorem normalizeUrl_idem_bounded : ∀ (n : Nat) (u : Str), u.length ≤ n →
    normalizeUrl (normalizeUrl u) = normalizeUrl u := by
  intro n
  induction n with
  | zero =>
    intro u hu
    have h0 : u = [] := List.length_eq_zero.mp (Nat.le_zero.mp hu)
    subst h0
    have hnone : parseUrl [] = none := rfl
    rw [normalizeUrl_parse_none [] hnone, normalizeUrl_parse_none [] hnone]
  | succ n ih =>
    intro u hu
    cases hp : parseUrl u with
    | none => rw [normalizeUrl_parse_none u hp, normalizeUrl_parse_none u hp]
    | some p =>
      have hwf := parseUrl_wf u p hp
      by_cases hg : p.host = googleHost
      · cases hq : getQueryParam p.query urlKey with
        | some inner =>
          by_cases hi : inner = []
          · subst hi
            rw [normalizeUrl_parse_finish u p hp fun _ => Or.inr hq]
            exact normalizeUrl_finish_fix p hwf fun _ => Or.inr hq
          · rw [normalizeUrl_parse_google u p inner hp hg hq hi]
            apply ih
            have h1 := parseUrl_query_length u p hp
            have h2 := getQueryParam_length p.query urlKey inner hq
            omega
        | none =>
          rw [normalizeUrl_parse_finish u p hp fun _ => Or.inl hq]
          exact normalizeUrl_finish_fix p hwf fun _ => Or.inl hq
      · rw [normalizeUrl_parse_finish u p hp fun hgg => absurd hgg hg]
        exact normalizeUrl_finish_fix p hwf fun hgg => absurd hgg hg

/-- C4: URL canonicalization is idempotent: for every input string `u`,
`normalizeUrl (normalizeUrl u) = normalizeUrl u`, including when parsing
fails and the input is returned unchanged. -/
theorem normalizeUrl_idempotent (u : Str) :
    normalizeUrl (normalizeUrl u) = normalizeUrl u :=
  normalizeUrl_idem_bounded u.length u (Nat.le_refl _)

theorem finishNormalize_congr (p1 p2 : UrlParts) (hs : p1.scheme = p2.scheme)
    (hh : p1.host = p2.host) (hp : p1.path = p2.path)
    (hq : stripTrackingSegs (splitOnAmp p1.query) =
      stripTrackingSegs (splitOnAmp p2.query)) :
    finishNormalize p1 = finishNormalize p2 := by
  unfold finishNormalize
  rw [hs, hh, hp, hq]

theorem getQueryParam_eq_of_stripped_eq (q1 q2 : Str)
    (h : stripTrackingSegs (splitOnAmp q1) = stripTrackingSegs (splitOnAmp q2)) :
    getQueryParam q1 urlKey = getQueryParam q2 urlKey := by
  unfold getQueryParam
  rw [← find?_filter_of_imp _ _ (splitOnAmp q1) urlKey_not_tracking,
      ← find?_filter_of_imp _ _ (splitOnAmp q2) urlKey_not_tracking]
  unfold stripTrackingSegs at h
  rw [h]

/-- C5: two parseable URLs that differ only in tracking query parameters or
in the fragment canonicalize to the same string, so any content hash of the
canonical string (the News id) agrees on both. -/
theorem normalizeUrl_tracking_fragment_stable
    (u1 u2 : Str) (p1 p2 : UrlParts)
    (h1 : parseUrl u1 = some p1) (h2 : parseUrl u2 = some p2)
    (hs : p1.scheme = p2.scheme) (hh : p1.host = p2.host) (hp : p1.path = p2.path)
    (hq : stripTrackingSegs (splitOnAmp p1.query) =
      stripTrackingSegs (splitOnAmp p2.query)) :
    normalizeUrl u1 = normalizeUrl u2 ∧
      ∀ sha1 : Str → String, sha1 (normalizeUrl u1) = sha1 (normalizeUrl u2) := by
  have hmain : normalizeUrl u1 = normalizeUrl u2 := by
    have hqeq : getQueryParam p1.query urlKey = getQueryParam p2.query urlKey :=
      getQueryParam_eq_of_stripped_eq p1.query p2.query hq
    by_cases hg : p1.host = googleHost
    · have hg2 : p2.host = googleHost := hh ▸ hg
      cases hr : getQueryParam p1.query urlKey with
      | some inner =>
        by_cases hi : inner = []
        · subst hi
          rw [normalizeUrl_parse_finish u1 p1 h1 fun _ => Or.inr hr,
              normalizeUrl_parse_finish u2 p2 h2 fun _ => Or.inr (hqeq ▸ hr)]
          exact finishNormalize_congr p1 p2 hs hh hp hq
        · rw [normalizeUrl_parse_google u1 p1 inner h1 hg hr hi,
              normalizeUrl_parse_google u2 p2 inner h2 hg2 (hqeq ▸ hr) hi]
      | none =>
        rw [normalizeUrl_parse_finish u1 p1 h1 fun _ => Or.inl hr,
            normalizeUrl_parse_finish u2 p2 h2 fun _ => Or.inl (hqeq ▸ hr)]
        exact finishNormalize_congr p1 p2 hs hh hp hq
    · have hg2 : p2.host ≠ googleHost := fun hx => hg (hh ▸ hx)
      rw [normalizeUrl_parse_finish u1 p1 h1 fun hgg => absurd hgg hg,
          normalizeUrl_parse_finish u2 p2 h2 fun hgg => absurd hgg hg2]
      exact finishNormalize_congr p1 p2 hs hh hp hq
  exact ⟨hmain, fun sha1 => congrArg sha1 hmain⟩

/-- Witness: two concrete URLs differing only by a tracking parameter and the
fragment canonicalize identically. -/
theorem normalizeUrl_tracking_fragment_stable_witness :
    normalizeUrl "https://Example.com/news/a?id=7&utm_source=tw#top".data =
      normalizeUrl "https://example.com/news/a?id=7&fbclid=XYZ".data :=
  (normalizeUrl_tracking_fragment_stable
    "https://Example.com/news/a?id=7&utm_source=tw#top".data
    "https://example.com/news/a?id=7&fbclid=XYZ".data
    ⟨"https".data, "example.com".data, "/news/a".data, "id=7&utm_source=tw".data,
      "top".data⟩
    ⟨"https".data, "example.com".data, "/news/a".data, "id=7&fbclid=XYZ".data, []⟩
    (by decide) (by decide) (by decide) (by decide) (by decide) (by decide)).1

/-!
## News discovery and deduplication (populate-news-collection script)

The news collection is a list of documents in insertion order.  `findOne`
returns the first match, `updateOne` updates the first match, `insertOne`
appends.  Event object-ids are natural numbers; ISO timestamps are integers.
The Mongo-internal `_id` of a news document (only used to fill the event's
`related_news` array) is not part of this store model.
-/

def normalizeUrlStr (s : String) : String := ⟨normalizeUrl s.data⟩

structure Article where
  id : String
  title : String
  canonical_url : String
  source : Option String
  snippet : Option String
  published_at : Option Int
  query : String
  fetched_at : Int
  deriving Repr, DecidableEq

structure NewsDoc where
  id : String
  title : String
  canonical_url : String
  source : Option String
  snippet : Option String
  published_at : Option Int
  event_ids : List Nat
  created_at : Int
  updated_at : Int
  deriving Repr, DecidableEq

abbrev NewsStore := List NewsDoc

/-- Mongo `$addToSet`: append the element only when it is absent. -/
def addToSet (l : List Nat) (x : Nat) : List Nat :=
  if x ∈ l then l else l ++ [x]

/-- `updateOne`: rewrite the first document matching the predicate. -/
def updateFirstWhere (p : NewsDoc → Bool) (f : NewsDoc → NewsDoc) :
    NewsStore → NewsStore
  | [] => []
  | d :: rest => if p d then f d :: rest else d :: updateFirstWhere p f rest

/-- The document inserted for a newly discovered article. -/
def newNewsDoc (now : Int) (a : Article) (eventId : Nat) : NewsDoc :=
  { id := a.id, title := a.title, canonical_url := a.canonical_url,
    source := a.source, snippet := a.snippet, published_at := a.published_at,
    event_ids := [eventId], created_at := now, updated_at := now }

/-- `upsertNewsArticle`: look the article up by content id; if present and
already linked, do nothing; if present and unlinked, `$set` the mutable
fields and `$addToSet` the event id; otherwise insert a fresh document. -/
def upsertNewsArticle (now : Int) (store : NewsStore) (a : Article)
    (eventId : Nat) : NewsStore :=
  match store.find? fun d => d.id == a.id with
  | some existing =>
    if eventId ∈ existing.event_ids then store
    else
      updateFirstWhere (fun d => d.id == a.id)
        (fun d => { d with title := a.title, snippet := a.snippet,
                           updated_at := now,
                           event_ids := addToSet d.event_ids eventId }) store
  | none => store ++ [newNewsDoc now a eventId]

/-- The duplicate-key recovery path of `processEvent`: the insert that lost
the race is rejected by the unique index on `id` (leaving the store as it
is); the recovery only re-reads the winning document.  When no document with
that id exists the insert itself succeeds. -/
def racedInsert (now : Int) (store : NewsStore) (a : Article)
    (eventId : Nat) : NewsStore :=
  match store.find? fun d => d.id == a.id with
  | some _ => store
  | none => store ++ [newNewsDoc now a eventId]

/-- One store-modifying step of any Discovery run: the normal
`upsertNewsArticle` path, or an insert racing a concurrent writer followed
by the duplicate-key recovery. -/
inductive DiscoveryStep where
  | upsert (a : Article) (eventId : Nat)
  | insertRace (a : Article) (eventId : Nat)
  deriving Repr, DecidableEq

def DiscoveryStep.article : DiscoveryStep → Article
  | .upsert a _ => a
  | .insertRace a _ => a

def discoveryStepRun (now : Int) (store : NewsStore) : DiscoveryStep → NewsStore
  | .upsert a e => upsertNewsArticle now store a e
  | .insertRace a e => racedInsert now store a e

def runDiscovery (now : Int) (store : NewsStore)
    (steps : List DiscoveryStep) : NewsStore :=
  steps.foldl (discoveryStepRun now) store

/-- The store invariant of C1: content ids are unique across documents and
no document links the same event twice. -/
def storeInv (store : NewsStore) : Prop :=
  (store.map (·.id)).Nodup ∧ ∀ d ∈ store, d.event_ids.Nodup

/-!
## Feed fetching (`fetchNewsFromGoogle`)

The RSS fetch-and-parse is a fallible external call, modelled as an
`Except`; everything the function does with a successful feed is embedded
below.  Timestamps are integer milliseconds; the feed item's fields mirror
`rss-parser` items.
-/

structure FeedItem where
  link : Option String
  title : Option String
  source : Option String
  creator : Option String
  author : Option String
  contentSnippet : Option String
  isoDate : Option Int
  deriving Repr, DecidableEq

/-- `maxArticlesPerQuery` from `NEWS_CONFIG`. -/
def maxArticlesPerQuery : Nat := 20

/-- The body of the per-item loop of `fetchNewsFromGoogle`: cap the batch,
canonicalize the link, skip canonical URLs already seen this fetch, drop
articles older than the cutoff (items without a timestamp are kept). -/
def collectArticles (sha1 : String → String) (cutoff : Int) (query : String)
    (fetchedAt : Int) : List FeedItem → List String → List Article → List Article
  | [], _, acc => acc
  | item :: rest, seen, acc =>
    if maxArticlesPerQuery ≤ acc.length then acc
    else
      let canonicalUrl := normalizeUrlStr (item.link.getD "")
      if canonicalUrl ∈ seen then collectArticles sha1 cutoff query fetchedAt rest seen acc
      else
        let id := sha1 canonicalUrl
        let keep : Bool :=
          match item.isoDate with
          | some ts => !(ts < cutoff)
          | none => true
        let acc2 :=
          if keep then
            acc ++ [{ id := id, title := item.title.getD "",
                      canonical_url := canonicalUrl,
                      source := (item.source <|> item.creator <|> item.author),
                      snippet := item.contentSnippet,
                      published_at := item.isoDate,
                      query := query, fetched_at := fetchedAt }]
          else acc
        collectArticles sha1 cutoff query fetchedAt rest (canonicalUrl :: seen) acc2

/-- `fetchNewsFromGoogle`: on any feed fetch/parse failure the catch block
returns the empty list; otherwise the items are filtered and capped. -/
def fetchNewsFromGoogle (sha1 : String → String) (nowMs : Int) (cfgDays : Int)
    (query : String) (feedResult : Except String (List FeedItem)) : List Article :=
  match feedResult with
  | .error _ => []
  | .ok items =>
    collectArticles sha1 (nowMs - cfgDays * 24 * 60 * 60 * 1000) query nowMs
      items [] []

/-- Every stored id is the content hash of the stored canonical URL. -/
def hashInv (hash : String → String) (store : NewsStore) : Prop :=
  ∀ d ∈ store, d.id = hash d.canonical_url

theorem addToSet_nodup (l : List Nat) (x : Nat) (h : l.Nodup) :
    (addToSet l x).Nodup := by
  unfold addToSet
  split
  · exact h
  · rename_i hx
    simpa [List.nodup_append, hx] using h

theorem updateFirstWhere_map_id (p : NewsDoc → Bool) (f : NewsDoc → NewsDoc)
    (hf : ∀ d, (f d).id = d.id) :
    ∀ store : NewsStore,
      (updateFirstWhere p f store).map (·.id) = store.map (·.id) := by
  intro store
  induction store with
  | nil => rfl
  | cons d rest ih =>
    by_cases hp : p d
    · simp [updateFirstWhere, hp, hf]
    · simp [updateFirstWhere, hp, ih]

theorem updateFirstWhere_mem (p : NewsDoc → Bool) (f : NewsDoc → NewsDoc) :
    ∀ (store : NewsStore) (d2 : NewsDoc), d2 ∈ updateFirstWhere p f store →
      d2 ∈ store ∨ ∃ d ∈ store, d2 = f d := by
  intro store
  induction store with
  | nil => intro d2 h; simp [updateFirstWhere] at h
  | cons d rest ih =>
    intro d2 h
    simp only [updateFirstWhere] at h
    split at h
    · rcases List.mem_cons.mp h with h1 | h2
      · right; exact ⟨d, by simp, h1⟩
      · left; simp [h2]
    · rcases List.mem_cons.mp h with h1 | h2
      · left; simp [h1]
      · rcases ih d2 h2 with h3 | ⟨dd, hdd, he⟩
        · left; simp [h3]
        · right; exact ⟨dd, by simp [hdd], he⟩

theorem find?_id_none (store : NewsStore) (i : String)
    (h : store.find? (fun d => d.id == i) = none) :
    ∀ d ∈ store, d.id ≠ i := by
  intro d hd
  have := List.find?_eq_none.mp h d hd
  simpa using this

theorem upsertNewsArticle_linked (now : Int) (store : NewsStore) (a : Article)
    (e : Nat) (ex : NewsDoc)
    (h : List.find? (fun d => d.id == a.id) store = some ex)
    (hl : e ∈ ex.event_ids) :
    upsertNewsArticle now store a e = store := by
  simp [upsertNewsArticle, h, hl]

theorem upsertNewsArticle_unlinked (now : Int) (store : NewsStore) (a : Article)
    (e : Nat) (ex : NewsDoc)
    (h : List.find? (fun d => d.id == a.id) store = some ex)
    (hl : e ∉ ex.event_ids) :
    upsertNewsArticle now store a e =
      updateFirstWhere (fun d => d.id == a.id)
        (fun d => { d with title := a.title, snippet := a.snippet,
                           updated_at := now,
                           event_ids := addToSet d.event_ids e }) store := by
  simp [upsertNewsArticle, h, hl]

theorem upsertNewsArticle_insert (now : Int) (store : NewsStore) (a : Article)
    (e : Nat) (h : List.find? (fun d => d.id == a.id) store = none) :
    upsertNewsArticle now store a e = store ++ [newNewsDoc now a e] := by
  simp [upsertNewsArticle, h]

theorem racedInsert_found (now : Int) (store : NewsStore) (a : Article)
    (e : Nat) (ex : NewsDoc)
    (h : List.find? (fun d => d.id == a.id) store = some ex) :
    racedInsert now store a e = store := by
  simp [racedInsert, h]

theorem racedInsert_insert (now : Int) (store : NewsStore) (a : Article)
    (e : Nat) (h : List.find? (fun d => d.id == a.id) store = none) :
    racedInsert now store a e = store ++ [newNewsDoc now a e] := by
  simp [racedInsert, h]

/-- The invariants after appending a freshly inserted news document whose id
is not yet in the store. -/
theorem insertNew_preserves (hash : String → String) (now : Int)
    (store : NewsStore) (a : Article) (e : Nat)
    (hids : (store.map (·.id)).Nodup) (hevs : ∀ d ∈ store, d.event_ids.Nodup)
    (hHash : hashInv hash store) (ha : a.id = hash a.canonical_url)
    (hf : List.find? (fun d => d.id == a.id) store = none) :
    storeInv (store ++ [newNewsDoc now a e]) ∧
    hashInv hash (store ++ [newNewsDoc now a e]) ∧
    (∀ i, i ∈ store.map (·.id) → i ∈ (store ++ [newNewsDoc now a e]).map (·.id)) ∧
    a.id ∈ (store ++ [newNewsDoc now a e]).map (·.id) := by
  have hnone := find?_id_none store a.id hf
  refine ⟨⟨?_, ?_⟩, ?_, ?_, ?_⟩
  · rw [List.map_append]
    simp only [newNewsDoc, List.map_cons, List.map_nil]
    rw [List.nodup_append]
    refine ⟨hids, List.nodup_singleton _, ?_⟩
    intro i hi
    simp only [List.mem_singleton]
    intro he
    obtain ⟨d, hd, hdi⟩ := List.mem_map.mp hi
    subst he
    exact hnone d hd (by simpa using hdi)
  · intro d hd
    rcases List.mem_append.mp hd with h1 | h2
    · exact hevs d h1
    · simp only [List.mem_singleton] at h2
      subst h2
      simp [newNewsDoc]
  · intro d hd
    rcases List.mem_append.mp hd with h1 | h2
    · exact hHash d h1
    · simp only [List.mem_singleton] at h2
      subst h2
      simpa [newNewsDoc] using ha
  · intro i hi
    rw [List.map_append]
    exact List.mem_append.mpr (Or.inl hi)
  · rw [List.map_append]
    refine List.mem_append.mpr (Or.inr ?_)
    simp [newNewsDoc]

/-- One Discovery step preserves the dedup invariant, preserves the
id-to-hash binding, never removes a document, and leaves a document carrying
the processed article's id. -/
theorem discoveryStep_preserves (hash : String → String) (now : Int)
    (store : NewsStore) (s : DiscoveryStep)
    (hInv : storeInv store) (hHash : hashInv hash store)
    (hs : s.article.id = hash s.article.canonical_url) :
    storeInv (discoveryStepRun now store s) ∧
    hashInv hash (discoveryStepRun now store s) ∧
    (∀ i, i ∈ store.map (·.id) → i ∈ (discoveryStepRun now store s).map (·.id)) ∧
    s.article.id ∈ (discoveryStepRun now store s).map (·.id) := by
  obtain ⟨hids, hevs⟩ := hInv
  cases s with
  | upsert a e =>
    show storeInv (upsertNewsArticle now store a e) ∧
      hashInv hash (upsertNewsArticle now store a e) ∧
      (∀ i, i ∈ store.map (·.id) →
        i ∈ (upsertNewsArticle now store a e).map (·.id)) ∧
      a.id ∈ (upsertNewsArticle now store a e).map (·.id)
    cases hf : List.find? (fun d => d.id == a.id) store with
    | some existing =>
      have hmem := List.mem_of_find?_eq_some hf
      have hid : existing.id = a.id := by simpa using List.find?_some hf
      have hpres : a.id ∈ store.map (·.id) :=
        hid ▸ List.mem_map_of_mem (·.id) hmem
      by_cases hl : e ∈ existing.event_ids
      · rw [upsertNewsArticle_linked now store a e existing hf hl]
        exact ⟨⟨hids, hevs⟩, hHash, fun i hi => hi, hpres⟩
      · rw [upsertNewsArticle_unlinked now store a e existing hf hl]
        have hmap := updateFirstWhere_map_id (fun d => d.id == a.id)
          (fun d => { d with title := a.title, snippet := a.snippet,
                             updated_at := now,
                             event_ids := addToSet d.event_ids e })
          (fun d => rfl) store
        refine ⟨⟨by rw [hmap]; exact hids, ?_⟩, ?_,
          fun i hi => by rw [hmap]; exact hi, by rw [hmap]; exact hpres⟩
        · intro d2 hd2
          rcases updateFirstWhere_mem _ _ store d2 hd2 with h1 | ⟨d, hd, he⟩
          · exact hevs d2 h1
          · subst he
            exact addToSet_nodup _ _ (hevs d hd)
        · intro d2 hd2
          rcases updateFirstWhere_mem _ _ store d2 hd2 with h1 | ⟨d, hd, he⟩
          · exact hHash d2 h1
          · subst he
            exact hHash d hd
    | none =>
      rw [upsertNewsArticle_insert now store a e hf]
      exact insertNew_preserves hash now store a e hids hevs hHash hs hf
  | insertRace a e =>
    show storeInv (racedInsert now store a e) ∧
      hashInv hash (racedInsert now store a e) ∧
      (∀ i, i ∈ store.map (·.id) →
        i ∈ (racedInsert now store a e).map (·.id)) ∧
      a.id ∈ (racedInsert now store a e).map (·.id)
    cases hf : List.find? (fun d => d.id == a.id) store with
    | some existing =>
      have hmem := List.mem_of_find?_eq_some hf
      have hid : existing.id = a.id := by simpa using List.find?_some hf
      have hpres : a.id ∈ store.map (·.id) :=
        hid ▸ List.mem_map_of_mem (·.id) hmem
      rw [racedInsert_found now store a e existing hf]
      exact ⟨⟨hids, hevs⟩, hHash, fun i hi => hi, hpres⟩
    | none =>
      rw [racedInsert_insert now store a e hf]
      exact insertNew_preserves hash now store a e hids hevs hHash hs hf

theorem runDiscovery_preserves (hash : String → String) (now : Int) :
    ∀ (steps : List DiscoveryStep) (store : NewsStore),
    storeInv store → hashInv hash store →
    (∀ s ∈ steps, s.article.id = hash s.article.canonical_url) →
    storeInv (runDiscovery now store steps) ∧
    hashInv hash (runDiscovery now store steps) ∧
    (∀ i, i ∈ store.map (·.id) → i ∈ (runDiscovery now store steps).map (·.id)) ∧
    (∀ s ∈ steps, s.article.id ∈ (runDiscovery now store steps).map (·.id)) := by
  intro steps
  induction steps with
  | nil =>
    intro store h1 h2 _
    exact ⟨h1, h2, fun i hi => hi, by simp⟩
  | cons s rest ih =>
    intro store h1 h2 h3
    have hstep := discoveryStep_preserves hash now store s h1 h2 (h3 s (by simp))
    have hrest := ih (discoveryStepRun now store s) hstep.1 hstep.2.1
      fun s2 hs2 => h3 s2 (by simp [hs2])
    refine ⟨hrest.1, hrest.2.1, ?_, ?_⟩
    · intro i hi
      exact hrest.2.2.1 i (hstep.2.2.1 i hi)
    · intro s2 hs2
      rcases List.mem_cons.mp hs2 with he | hm
      · subst he
        exact hrest.2.2.1 _ hstep.2.2.2
      · exact hrest.2.2.2 s2 hm

theorem id_filter_length_le : ∀ store : NewsStore,
    (store.map (·.id)).Nodup → ∀ i : String,
    (store.filter fun d => d.id == i).length ≤ 1 := by
  intro store
  induction store with
  | nil => intro _ i; simp
  | cons d rest ih =>
    intro hids i
    simp only [List.map_cons, List.nodup_cons] at hids
    rw [List.filter_cons]
    by_cases hd : (d.id == i) = true
    · rw [if_pos hd]
      have hi : d.id = i := by simpa using hd
      have hnil : rest.filter (fun d2 => d2.id == i) = [] := by
        rw [List.filter_eq_nil]
        intro d2 hd2
        simp only [beq_iff_eq]
        intro he
        exact hids.1 (List.mem_map.mpr ⟨d2, hd2, by rw [he, hi]⟩)
      simp [hnil]
    · rw [if_neg hd]
      exact ih hids.2 i

theorem id_filter_length_eq_one (store : NewsStore)
    (hids : (store.map (·.id)).Nodup) (i : String)
    (hmem : i ∈ store.map (·.id)) :
    (store.filter fun d => d.id == i).length = 1 := by
  have hle := id_filter_length_le store hids i
  have hge : 0 < (store.filter fun d => d.id == i).length := by
    obtain ⟨d, hd, he⟩ := List.mem_map.mp hmem
    exact List.length_pos_of_mem (List.mem_filter.mpr ⟨hd, by simp [he]⟩)
  omega

theorem url_filter_length_le (hash : String → String) : ∀ store : NewsStore,
    (store.map (·.id)).Nodup → hashInv hash store → ∀ url : String,
    (store.filter fun d => d.canonical_url == url).length ≤ 1 := by
  intro store
  induction store with
  | nil => intro _ _ url; simp
  | cons d rest ih =>
    intro hids hh url
    simp only [List.map_cons, List.nodup_cons] at hids
    have hhrest : hashInv hash rest := fun d2 hd2 => hh d2 (by simp [hd2])
    rw [List.filter_cons]
    by_cases hd : (d.canonical_url == url) = true
    · rw [if_pos hd]
      have hurl : d.canonical_url = url := by simpa using hd
      have hnil : rest.filter (fun d2 => d2.canonical_url == url) = [] := by
        rw [List.filter_eq_nil]
        intro d2 hd2
        simp only [beq_iff_eq]
        intro hurl2
        have e1 : d.id = hash url := by rw [hh d (by simp), hurl]
        have e2 : d2.id = hash url := by rw [hhrest d2 hd2, hurl2]
        exact hids.1 (List.mem_map.mpr ⟨d2, hd2, by rw [e2, e1]⟩)
      simp [hnil]
    · rw [if_neg hd]
      exact ih hids.2 hhrest url

/-- C1: over any sequence of Discovery steps — normal `upsertNewsArticle`
lookups and duplicate-key recoveries alike — the news store keeps exactly
one document per content id (hence per canonical URL, the id being its
hash), and no document ever lists the same event id twice. -/
theorem discovery_dedup_invariant (hash : String → String) (now : Int)
    (store0 : NewsStore) (steps : List DiscoveryStep)
    (hInv : storeInv store0) (hHash : hashInv hash store0)
    (hsteps : ∀ s ∈ steps, s.article.id = hash s.article.canonical_url) :
    ((runDiscovery now store0 steps).map (·.id)).Nodup ∧
    (∀ d ∈ runDiscovery now store0 steps, d.event_ids.Nodup) ∧
    (∀ url, ((runDiscovery now store0 steps).filter
      fun d => d.canonical_url == url).length ≤ 1) ∧
    (∀ s ∈ steps, ((runDiscovery now store0 steps).filter
      fun d => d.id == s.article.id).length = 1) := by
  have h := runDiscovery_preserves hash now steps store0 hInv hHash hsteps
  refine ⟨h.1.1, h.1.2, ?_, ?_⟩
  · intro url
    exact url_filter_length_le hash _ h.1.1 h.2.1 url
  · intro s hs
    exact id_filter_length_eq_one _ h.1.1 _ (h.2.2.2 s hs)

def wArticle1 : Article :=
  { id := "https://example.com/a", title := "A", canonical_url := "https://example.com/a",
    source := none, snippet := none, published_at := none, query := "q", fetched_at := 0 }

def wArticle2 : Article :=
  { id := "https://example.com/b", title := "B", canonical_url := "https://example.com/b",
    source := none, snippet := none, published_at := none, query := "q", fetched_at := 0 }

def wSteps : List DiscoveryStep :=
  [DiscoveryStep.upsert wArticle1 1, DiscoveryStep.upsert wArticle1 2,
   DiscoveryStep.insertRace wArticle1 1, DiscoveryStep.upsert wArticle2 1,
   DiscoveryStep.upsert wArticle1 1]

/-- Witness: a concrete run with repeated discoveries, cross-event links and
a duplicate-key race yields a store with pairwise distinct content ids. -/
theorem discovery_dedup_invariant_witness :
    ((runDiscovery 0 [] wSteps).map (·.id)).Nodup :=
  (discovery_dedup_invariant (fun s => s) 0 [] wSteps
    (by constructor <;> simp [storeInv])
    (by intro d hd; simp at hd)
    (by decide)).1

/-- C9: `fetchNewsFromGoogle` never throws to its caller: the function is
total, and every feed-fetch or parse failure is caught and yields the empty
article list, so discovery for that query proceeds with zero candidates
rather than aborting the run. -/
theorem fetchNewsFromGoogle_error_empty (sha1 : String → String)
    (nowMs cfgDays : Int) (query : String) (e : String) :
    fetchNewsFromGoogle sha1 nowMs cfgDays query (Except.error e) = [] := rfl

/-!
## Event/market sync engine (`kalshiService.js`)

Upstream payloads and the Event/Market collections.  Prices and volumes are
stored verbatim (integers); Mongo object ids are allocated from a counter in
the sync state.  An absent `expires_at` is `none`; the `$lt` expiry
predicate is type-bracketed in Mongo and matches neither `null` nor a
missing field, which the `Option` model reflects.
-/

structure UpMarket where
  ticker : String
  title : Option String
  name : Option String
  yes_sub_title : Option String
  no_sub_title : Option String
  status : Option String
  yes_bid : Option Int
  no_bid : Option Int
  yes_price : Option Int
  no_price : Option Int
  volume : Option Int
  latest_expiration_time : Int
  deriving Repr, DecidableEq

structure UpEvent where
  event_ticker : String
  title : String
  category : Option String
  sub_title : Option String
  status : Option String
  strike_date : Option Int
  markets : List UpMarket
  deriving Repr, DecidableEq

structure EventDoc where
  event_ticker : String
  title : String
  category : Option String
  sub_title : Option String
  expires_at : Option Int
  status : Option String
  key_words : List String
  related_news : List Nat
  markets : List Nat
  deriving Repr, DecidableEq

structure MarketDoc where
  oid : Nat
  market_ticker : String
  event_ticker : String
  name : Option String
  yes_sub_title : Option String
  no_sub_title : Option String
  status : Option String
  yes_price : Option Int
  no_price : Option Int
  volume : Option Int
  expires_at : Option Int
  deriving Repr, DecidableEq

structure SyncState where
  events : List EventDoc
  markets : List MarketDoc
  nextOid : Nat
  deriving Repr, DecidableEq

/-- `updateOne` on the event collection: rewrite the first matching doc. -/
def updateFirstEvent (p : EventDoc → Bool) (f : EventDoc → EventDoc) :
    List EventDoc → List EventDoc
  | [] => []
  | d :: rest => if p d then f d :: rest else d :: updateFirstEvent p f rest

/-- `Market.findOneAndUpdate({market_ticker}, {...}, {upsert: true})` of the
combined sync: replace every listed field on the existing doc (keeping its
`_id`), or insert a fresh doc; returns the doc's `_id`. -/
def upsertMarket (st : SyncState) (evTicker : String) (m : UpMarket) :
    SyncState × Nat :=
  match st.markets.find? fun d => d.market_ticker == m.ticker with
  | some d =>
    ({ st with markets := st.markets.map fun d2 =>
        if d2.market_ticker == m.ticker then
          { oid := d2.oid, market_ticker := m.ticker, event_ticker := evTicker,
            name := m.title, yes_sub_title := m.yes_sub_title,
            no_sub_title := m.no_sub_title, status := m.status,
            yes_price := m.yes_bid, no_price := m.no_bid, volume := m.volume,
            expires_at := some m.latest_expiration_time }
        else d2 }, d.oid)
  | none =>
    ({ st with
        markets := st.markets ++
          [{ oid := st.nextOid, market_ticker := m.ticker,
             event_ticker := evTicker, name := m.title,
             yes_sub_title := m.yes_sub_title, no_sub_title := m.no_sub_title,
             status := m.status, yes_price := m.yes_bid, no_price := m.no_bid,
             volume := m.volume, expires_at := some m.latest_expiration_time }],
        nextOid := st.nextOid + 1 }, st.nextOid)

/-- The per-event market loop of `updateEventsAndMarkets`, collecting the
resulting market `_id`s in order. -/
def upsertMarkets (st : SyncState) (evTicker : String) :
    List UpMarket → SyncState × List Nat
  | [] => (st, [])
  | m :: rest =>
    let r := upsertMarket st evTicker m
    let r2 := upsertMarkets r.1 evTicker rest
    (r2.1, r.2 :: r2.2)

/-- `Math.max` over the nested markets' expirations (callers guard against
the empty list). -/
def maxExpiration : List UpMarket → Int
  | [] => 0
  | m :: rest => rest.foldl (fun acc x => max acc x.latest_expiration_time)
      m.latest_expiration_time

/-- Event expiration derivation: upstream strike date first, otherwise the
latest nested-market expiration, otherwise null. -/
def derivedExpiry (e : UpEvent) : Option Int :=
  match e.strike_date with
  | some d => some d
  | none => if e.markets.isEmpty then none else some (maxExpiration e.markets)

/-- One event of the `updateEventsAndMarkets` page loop: upsert the nested
markets, then create the event, or — when it already exists — update only
its `markets` and `expires_at` fields. -/
def processSyncEvent (kw : String → List String) (st : SyncState)
    (e : UpEvent) : SyncState :=
  let exists_ := st.events.find? fun d => d.event_ticker == e.event_ticker
  let r := upsertMarkets st e.event_ticker e.markets
  let expiresAt := derivedExpiry e
  let keyWords := kw e.title
  match exists_ with
  | none =>
    { r.1 with events := r.1.events ++
        [{ event_ticker := e.event_ticker, title := e.title,
           category := e.category, sub_title := e.sub_title,
           expires_at := expiresAt, status := e.status, key_words := keyWords,
           related_news := [], markets := r.2 }] }
  | some _ =>
    let evs := updateFirstEvent (fun d => d.event_ticker == e.event_ticker)
      (fun d => { d with markets := r.2, expires_at := expiresAt }) r.1.events
    { r.1 with events := evs }

/-- The `$lt: new Date()` predicate of the expiry sweeps: it matches only
documents whose `expires_at` is a date strictly before `now`; Mongo range
comparisons are type-bracketed, so `null` and missing values never match
(both are `none` here). -/
def expiresBefore (now : Int) : Option Int → Bool
  | some t => t < now
  | none => false

/-- `Event.deleteMany({ expires_at: { $lt: new Date() } })` — the event
sweep run after the page loop in both sync variants: the remaining
collection. -/
def sweepEvents (now : Int) (docs : List EventDoc) : List EventDoc :=
  docs.filter fun d => !(expiresBefore now d.expires_at)

/-- `Market.deleteMany({ expires_at: { $lt: new Date() } })` — present in
`updateMarkets`; the combined variant's market sweep is cut off in the
source and is Modelled from the spec: §4.3 deletes, after the page loop,
all markets whose `expires_at` is strictly in the past, with the same
predicate as the event sweep. -/
def sweepMarkets (now : Int) (docs : List MarketDoc) : List MarketDoc :=
  docs.filter fun d => !(expiresBefore now d.expires_at)

structure EventsPage where
  events : List UpEvent
  cursor : Option String
  deriving Repr, DecidableEq

/-- The event document created by `updateEvents` on first sighting (its
expiry derivation — strike date, else latest nested-market expiration via
sort-descending-then-first, else null — computes `derivedExpiry`). -/
def createEventDoc (kw : String → List String) (e : UpEvent) : EventDoc :=
  { event_ticker := e.event_ticker, title := e.title, category := e.category,
    sub_title := e.sub_title, expires_at := derivedExpiry e, status := e.status,
    key_words := kw e.title, related_news := [], markets := [] }

/-- The per-page for-loop of `updateEvents`: create events not yet stored,
advancing the `collectionSize` counter only on creation. -/
def processEventsPage (kw : String → List String) :
    List EventDoc × Nat → List UpEvent → List EventDoc × Nat
  | acc, [] => acc
  | acc, e :: rest =>
    match acc.1.find? fun d => d.event_ticker == e.event_ticker with
    | some _ => processEventsPage kw acc rest
    | none => processEventsPage kw (acc.1 ++ [createEventDoc kw e], acc.2 + 1) rest

structure UpdateEventsResult where
  store : List EventDoc
  collectionSize : Nat
  pagesFetched : Nat
  deriving Repr, DecidableEq

/-- The do-while pagination loop of `updateEvents` over the successive
upstream responses: after each page, continue exactly when the response
carried a cursor and fewer than 400 events have been created this run.
`pagesFetched` counts the upstream page requests. -/
def runUpdateEvents (kw : String → List String) (store : List EventDoc)
    (size : Nat) : List EventsPage → UpdateEventsResult
  | [] => ⟨store, size, 0⟩
  | pg :: rest =>
    let acc := processEventsPage kw (store, size) pg.events
    if pg.cursor.isSome ∧ acc.2 < 400 then
      let r := runUpdateEvents kw acc.1 acc.2 rest
      ⟨r.store, r.collectionSize, r.pagesFetched + 1⟩
    else ⟨acc.1, acc.2, 1⟩

/-- How many pages a purely cursor-driven loop consumes: everything up to
and including the first response without a cursor.  This follows the
claim's wording, for comparison with the capped loop. -/
def pagesUntilNoCursor : List EventsPage → Nat
  | [] => 0
  | pg :: rest => if pg.cursor.isSome then pagesUntilNoCursor rest + 1 else 1

theorem processEventsPage_all_exist (kw : String → List String) :
    ∀ (evs : List UpEvent) (store : List EventDoc) (n : Nat),
    (∀ e ∈ evs, ∃ d ∈ store, d.event_ticker = e.event_ticker) →
    processEventsPage kw (store, n) evs = (store, n) := by
  intro evs
  induction evs with
  | nil => intro store n _; rfl
  | cons e rest ih =>
    intro store n h
    obtain ⟨d, hd, he⟩ := h e (by simp)
    cases hf : store.find? (fun d2 => d2.event_ticker == e.event_ticker) with
    | none =>
      exfalso
      have := List.find?_eq_none.mp hf d hd
      simp [he] at this
    | some dx =>
      simp only [processEventsPage, hf]
      exact ih store n fun e2 h2 => h e2 (by simp [h2])

/-- C8: in a run where every upstream event already exists in the store,
the creation counter `collectionSize` stays at zero, the store is left
unchanged, and the pagination loop consumes exactly the pages a cap-free,
cursor-driven loop would: the 400-cap never decides termination. -/
theorem updateEvents_cap_idle (kw : String → List String) :
    ∀ (pages : List EventsPage) (store : List EventDoc),
    (∀ pg ∈ pages, ∀ e ∈ pg.events,
      ∃ d ∈ store, d.event_ticker = e.event_ticker) →
    runUpdateEvents kw store 0 pages = ⟨store, 0, pagesUntilNoCursor pages⟩ := by
  intro pages
  induction pages with
  | nil => intro store _; rfl
  | cons pg rest ih =>
    intro store h
    have hpage := processEventsPage_all_exist kw pg.events store 0
      fun e he => h pg (by simp) e he
    simp only [runUpdateEvents, hpage, pagesUntilNoCursor]
    cases hc : pg.cursor with
    | none => simp
    | some c =>
      simp only [Option.isSome_some, true_and]
      rw [if_pos (by omega), ih store fun pg2 h2 e he => h pg2 (by simp [h2]) e he]
      simp

def wEvDoc1 : EventDoc :=
  { event_ticker := "EV1", title := "T1", category := none, sub_title := none,
    expires_at := some 500, status := some "open", key_words := ["t1"],
    related_news := [], markets := [] }

def wUpEv1 : UpEvent :=
  { event_ticker := "EV1", title := "T1", category := none, sub_title := none,
    status := some "open", strike_date := some 500, markets := [] }

def wPages : List EventsPage :=
  [⟨[wUpEv1], some "c1"⟩, ⟨[wUpEv1], some "c2"⟩, ⟨[wUpEv1], none⟩]

/-- Witness: a three-page run whose events all already exist terminates at
the cursor-less third page with the counter still at zero. -/
theorem updateEvents_cap_idle_witness :
    runUpdateEvents (fun _ => []) [wEvDoc1] 0 wPages = ⟨[wEvDoc1], 0, 3⟩ :=
  updateEvents_cap_idle (fun _ => []) wPages [wEvDoc1] (by decide)

/-- C6: the expiry sweep run after a sync's page loop removes exactly those
Event — and in the combined variant Market — documents whose `expires_at`
is strictly in the past, and removes no document whose `expires_at` is in
the future, null, or absent. -/
theorem expiry_sweep_exact (now : Int) (evs : List EventDoc)
    (mks : List MarketDoc) :
    (∀ d ∈ evs, (d ∈ sweepEvents now evs ↔
      ¬∃ t, d.expires_at = some t ∧ t < now)) ∧
    (∀ d ∈ mks, (d ∈ sweepMarkets now mks ↔
      ¬∃ t, d.expires_at = some t ∧ t < now)) := by
  constructor
  · intro d hd
    constructor
    · intro hin hex
      obtain ⟨t, ht, hlt⟩ := hex
      have hkeep := (List.mem_filter.mp hin).2
      simp [expiresBefore, ht, hlt] at hkeep
    · intro hnot
      refine List.mem_filter.mpr ⟨hd, ?_⟩
      cases he : d.expires_at with
      | none => simp [expiresBefore]
      | some t =>
        have hge : ¬ t < now := fun hlt => hnot ⟨t, he, hlt⟩
        simp [expiresBefore, hge]
  · intro d hd
    constructor
    · intro hin hex
      obtain ⟨t, ht, hlt⟩ := hex
      have hkeep := (List.mem_filter.mp hin).2
      simp [expiresBefore, ht, hlt] at hkeep
    · intro hnot
      refine List.mem_filter.mpr ⟨hd, ?_⟩
      cases he : d.expires_at with
      | none => simp [expiresBefore]
      | some t =>
        have hge : ¬ t < now := fun hlt => hnot ⟨t, he, hlt⟩
        simp [expiresBefore, hge]

def wEvPast : EventDoc :=
  { event_ticker := "P", title := "p", category := none, sub_title := none,
    expires_at := some 10, status := none, key_words := [], related_news := [],
    markets := [] }

def wEvNull : EventDoc :=
  { event_ticker := "N", title := "n", category := none, sub_title := none,
    expires_at := none, status := none, key_words := [], related_news := [],
    markets := [] }

/-- Witness: with now = 100, a past-dated event is removed by the sweep and
a null-dated event is kept. -/
theorem expiry_sweep_exact_witness :
    (wEvPast ∈ sweepEvents 100 [wEvPast, wEvNull] ↔
      ¬∃ t, wEvPast.expires_at = some t ∧ t < 100) ∧
    (wEvNull ∈ sweepEvents 100 [wEvPast, wEvNull] ↔
      ¬∃ t, wEvNull.expires_at = some t ∧ t < 100) :=
  ⟨(expiry_sweep_exact 100 [wEvPast, wEvNull] []).1 wEvPast (by decide),
   (expiry_sweep_exact 100 [wEvPast, wEvNull] []).1 wEvNull (by decide)⟩

theorem upsertMarkets_events : ∀ (ms : List UpMarket) (st : SyncState)
    (t : String), (upsertMarkets st t ms).1.events = st.events := by
  intro ms
  induction ms with
  | nil => intro st t; rfl
  | cons m rest ih =>
    intro st t
    show (upsertMarkets (upsertMarket st t m).1 t rest).1.events = st.events
    rw [ih]
    unfold upsertMarket
    cases st.markets.find? fun d => d.market_ticker == m.ticker <;> rfl

theorem updateFirstEvent_find? (p : EventDoc → Bool) (f : EventDoc → EventDoc)
    (hpf : ∀ d, p d = true → p (f d) = true) :
    ∀ (l : List EventDoc) (d : EventDoc), l.find? p = some d →
      (updateFirstEvent p f l).find? p = some (f d) := by
  intro l
  induction l with
  | nil => intro d h; simp at h
  | cons x rest ih =>
    intro d h
    by_cases hx : p x = true
    · rw [List.find?_cons_of_pos _ hx] at h
      simp only [Option.some.injEq] at h
      subst h
      simp only [updateFirstEvent, if_pos hx]
      rw [List.find?_cons_of_pos _ (hpf x hx)]
    · rw [List.find?_cons_of_neg _ (by simpa using hx)] at h
      simp only [updateFirstEvent, if_neg hx]
      rw [List.find?_cons_of_neg _ (by simpa using hx)]
      exact ih d h

/-- When the event already exists, the combined sync's write replaces
exactly the `markets` and `expires_at` fields of its stored document. -/
theorem processSyncEvent_existing (kw : String → List String) (st : SyncState)
    (e : UpEvent) (d : EventDoc)
    (h : st.events.find? (fun x => x.event_ticker == e.event_ticker) = some d) :
    (processSyncEvent kw st e).events.find?
        (fun x => x.event_ticker == e.event_ticker) =
      some { d with markets := (upsertMarkets st e.event_ticker e.markets).2,
                    expires_at := derivedExpiry e } := by
  have hev : (processSyncEvent kw st e).events =
      updateFirstEvent (fun x => x.event_ticker == e.event_ticker)
        (fun x => { x with
          markets := (upsertMarkets st e.event_ticker e.markets).2,
          expires_at := derivedExpiry e }) st.events := by
    simp only [processSyncEvent, h]
    rw [upsertMarkets_events]
  rw [hev]
  exact updateFirstEvent_find? (fun x => x.event_ticker == e.event_ticker)
    (fun x => { x with
      markets := (upsertMarkets st e.event_ticker e.markets).2,
      expires_at := derivedExpiry e })
    (fun x hx => hx) st.events d h

/-- C10: for an event that already exists when `updateEventsAndMarkets`
processes it, the update writes only `markets` and `expires_at`; `title`,
`category`, `sub_title`, `status`, `key_words` and `related_news` keep their
prior values, so upstream changes to those fields never propagate after
first insertion. -/
theorem sync_existing_event_frame (kw : String → List String) (st : SyncState)
    (e : UpEvent) (d : EventDoc)
    (h : st.events.find? (fun x => x.event_ticker == e.event_ticker) = some d) :
    ∃ d2, (processSyncEvent kw st e).events.find?
        (fun x => x.event_ticker == e.event_ticker) = some d2 ∧
      d2.title = d.title ∧ d2.category = d.category ∧
      d2.sub_title = d.sub_title ∧ d2.status = d.status ∧
      d2.key_words = d.key_words ∧ d2.related_news = d.related_news ∧
      d2.markets = (upsertMarkets st e.event_ticker e.markets).2 ∧
      d2.expires_at = derivedExpiry e :=
  ⟨{ d with markets := (upsertMarkets st e.event_ticker e.markets).2,
            expires_at := derivedExpiry e },
    processSyncEvent_existing kw st e d h,
    rfl, rfl, rfl, rfl, rfl, rfl, rfl, rfl⟩

/-- C2 (amended): for an existing event the combined sync refreshes the
stored markets id-set and `expires_at` unconditionally — a cycle whose
payload carries no nested markets for the event overwrites the previously
stored links with the empty set. -/
theorem sync_existing_event_refresh_unconditional (kw : String → List String)
    (st : SyncState) (e : UpEvent) (d : EventDoc)
    (h : st.events.find? (fun x => x.event_ticker == e.event_ticker) = some d) :
    ∃ d2, (processSyncEvent kw st e).events.find?
        (fun x => x.event_ticker == e.event_ticker) = some d2 ∧
      d2.markets = (upsertMarkets st e.event_ticker e.markets).2 ∧
      d2.expires_at = derivedExpiry e ∧
      (e.markets = [] → d2.markets = []) :=
  ⟨{ d with markets := (upsertMarkets st e.event_ticker e.markets).2,
            expires_at := derivedExpiry e },
    processSyncEvent_existing kw st e d h, rfl, rfl,
    fun hm => by simp [hm, upsertMarkets]⟩

def cEventDoc : EventDoc :=
  { event_ticker := "E1", title := "T", category := none, sub_title := none,
    expires_at := some 50, status := some "open", key_words := ["t"],
    related_news := [], markets := [5] }

def cMarketDoc : MarketDoc :=
  { oid := 5, market_ticker := "M1", event_ticker := "E1", name := some "m",
    yes_sub_title := none, no_sub_title := none, status := some "open",
    yes_price := some 40, no_price := some 60, volume := some 10,
    expires_at := some 50 }

def cSyncState : SyncState :=
  { events := [cEventDoc], markets := [cMarketDoc], nextOid := 6 }

def cUpEvent : UpEvent :=
  { event_ticker := "E1", title := "T", category := none, sub_title := none,
    status := some "open", strike_date := some 60, markets := [] }

/-- C2 (counterexample): a cycle that returns the existing event with no
nested markets nevertheless replaces its stored markets link-set — the
previously known link `[5]` is wiped to `[]`, contrary to the claimed
"refresh only if this cycle produced at least one market" guard. -/
theorem sync_refresh_guard_counterexample :
    cSyncState.events.map (fun d => d.markets) = [[5]] ∧
    cUpEvent.markets = [] ∧
    (processSyncEvent (fun _ => []) cSyncState cUpEvent).events.map
      (fun d => d.markets) = [[]] ∧
    (processSyncEvent (fun _ => []) cSyncState cUpEvent).events.map
      (fun d => d.markets) ≠ cSyncState.events.map (fun d => d.markets) := by
  refine ⟨rfl, rfl, rfl, by decide⟩

/-- Witness for the amended C2 theorem at the concrete wiped-links state. -/
theorem sync_existing_event_refresh_unconditional_witness :
    ∃ d2, (processSyncEvent (fun _ => []) cSyncState cUpEvent).events.find?
        (fun x => x.event_ticker == cUpEvent.event_ticker) = some d2 ∧
      d2.markets = (upsertMarkets cSyncState cUpEvent.event_ticker
        cUpEvent.markets).2 ∧
      d2.expires_at = derivedExpiry cUpEvent ∧
      (cUpEvent.markets = [] → d2.markets = []) :=
  sync_existing_event_refresh_unconditional (fun _ => []) cSyncState cUpEvent
    cEventDoc (by decide)

def cUpEvent2 : UpEvent :=
  { event_ticker := "E1", title := "T-changed", category := some "Politics",
    sub_title := some "s", status := some "closed", strike_date := some 60,
    markets := [] }

/-- Witness for the frame theorem: an upstream payload with changed title,
category and status leaves the stored values untouched. -/
theorem sync_existing_event_frame_witness :
    ∃ d2, (processSyncEvent (fun _ => []) cSyncState cUpEvent2).events.find?
        (fun x => x.event_ticker == cUpEvent2.event_ticker) = some d2 ∧
      d2.title = cEventDoc.title ∧ d2.category = cEventDoc.category ∧
      d2.sub_title = cEventDoc.sub_title ∧ d2.status = cEventDoc.status ∧
      d2.key_words = cEventDoc.key_words ∧
      d2.related_news = cEventDoc.related_news ∧
      d2.markets = (upsertMarkets cSyncState cUpEvent2.event_ticker
        cUpEvent2.markets).2 ∧
      d2.expires_at = derivedExpiry cUpEvent2 :=
  sync_existing_event_frame (fun _ => []) cSyncState cUpEvent2 cEventDoc
    (by decide)

/-!
## Thumbnail backfill (`update-news-thumbnails.js`)

The file holds two revisions of the backfill script: an older full-scan
variant and the newer recent-articles-only variant.  For a selected article
the puppeteer redirector resolution and the page fetch are external
effects whose combined outcome is the input below — `extractActualUrl`
catches its own failures, so the only error path is a rejected
`cluster.execute`, and `fetchThumbnailFromUrl` catches every network or
parse failure and returns null.
-/

inductive ResolveOutcome where
  | resolverError (msg : String)
  | resolved (thumb : Option String)
  deriving Repr, DecidableEq

/-- A `$set` write issued to the news collection for one article;
`thumbnail_not_found` is `none` when the write does not touch that field. -/
structure ThumbWrite where
  thumbnail : Option String
  thumbnail_not_found : Option Bool
  sets_thumbnail_fetched_at : Bool
  sets_updated_at : Bool
  deriving Repr, DecidableEq

/-- The writes the recent-articles variant issues for one selected article:
resolver errors, a found thumbnail and a missing thumbnail each issue
exactly one terminal write. -/
def thumbWritesRecent : ResolveOutcome → List ThumbWrite
  | .resolverError _ => [⟨none, some true, true, true⟩]
  | .resolved (some t) => [⟨some t, some false, true, true⟩]
  | .resolved none => [⟨none, some true, true, true⟩]

/-- The writes the full-scan variant issues for one selected article: a
cluster-execute error is only logged and counted (no write), and neither
remaining write touches `thumbnail_not_found`. -/
def thumbWritesFull : ResolveOutcome → List ThumbWrite
  | .resolverError _ => []
  | .resolved (some t) => [⟨some t, none, true, true⟩]
  | .resolved none => [⟨none, none, true, true⟩]

/-- C3 (counterexample): in the full-scan variant a redirector-resolution
error produces no terminal write at all, and the no-image write leaves
`thumbnail_not_found` untouched — the claimed write discipline fails for
that variant. -/
theorem thumbnail_terminal_write_counterexample :
    thumbWritesFull (ResolveOutcome.resolverError "navigation timeout") = [] ∧
    (thumbWritesFull (ResolveOutcome.resolverError "navigation timeout")).length
      ≠ 1 ∧
    (thumbWritesFull (ResolveOutcome.resolved none)).map
      (fun w => w.thumbnail_not_found) = [none] :=
  ⟨rfl, by decide, rfl⟩

/-- C3 (amended): in the recent-articles backfill variant, every selected
article receives exactly one terminal write: on success it sets the
thumbnail, sets `thumbnail_not_found` to false and stamps
`thumbnail_fetched_at` and `updated_at`; on any failure (redirector error
or no image found) it sets `thumbnail` to null, `thumbnail_not_found` to
true, and still stamps `thumbnail_fetched_at`. -/
theorem thumbnail_terminal_write_recent (o : ResolveOutcome) :
    (thumbWritesRecent o).length = 1 ∧
    ∀ w ∈ thumbWritesRecent o,
      w.sets_thumbnail_fetched_at = true ∧
      ((∃ t, o = ResolveOutcome.resolved (some t) ∧ w.thumbnail = some t ∧
          w.thumbnail_not_found = some false ∧ w.sets_updated_at = true) ∨
        (w.thumbnail = none ∧ w.thumbnail_not_found = some true ∧
          (o = ResolveOutcome.resolved none ∨
            ∃ m, o = ResolveOutcome.resolverError m))) := by
  cases o with
  | resolverError m =>
    refine ⟨rfl, ?_⟩
    intro w hw
    simp only [thumbWritesRecent, List.mem_singleton] at hw
    subst hw
    exact ⟨rfl, Or.inr ⟨rfl, rfl, Or.inr ⟨m, rfl⟩⟩⟩
  | resolved t =>
    cases t with
    | some s =>
      refine ⟨rfl, ?_⟩
      intro w hw
      simp only [thumbWritesRecent, List.mem_singleton] at hw
      subst hw
      exact ⟨rfl, Or.inl ⟨s, rfl, rfl, rfl, rfl⟩⟩
    | none =>
      refine ⟨rfl, ?_⟩
      intro w hw
      simp only [thumbWritesRecent, List.mem_singleton] at hw
      subst hw
      exact ⟨rfl, Or.inr ⟨rfl, rfl, Or.inl rfl⟩⟩

/-- Witness: the recent-variant write for a found thumbnail. -/
theorem thumbnail_terminal_write_recent_witness :
    (thumbWritesRecent (ResolveOutcome.resolved (some "img"))).length = 1 ∧
    ((⟨some "img", some false, true, true⟩ : ThumbWrite).sets_thumbnail_fetched_at
        = true ∧
      ((∃ t, ResolveOutcome.resolved (some "img") =
            ResolveOutcome.resolved (some t) ∧
          (⟨some "img", some false, true, true⟩ : ThumbWrite).thumbnail = some t ∧
          (⟨some "img", some false, true, true⟩ : ThumbWrite).thumbnail_not_found
            = some false ∧
          (⟨some "img", some false, true, true⟩ : ThumbWrite).sets_updated_at
            = true) ∨
        ((⟨some "img", some false, true, true⟩ : ThumbWrite).thumbnail = none ∧
          (⟨some "img", some false, true, true⟩ : ThumbWrite).thumbnail_not_found
            = some true ∧
          (ResolveOutcome.resolved (some "img") = ResolveOutcome.resolved none ∨
            ∃ m, ResolveOutcome.resolved (some "img") =
              ResolveOutcome.resolverError m)))) :=
  ⟨(thumbnail_terminal_write_recent (ResolveOutcome.resolved (some "img"))).1,
   (thumbnail_terminal_write_recent (ResolveOutcome.resolved (some "img"))).2
     ⟨some "img", some false, true, true⟩ (by decide)⟩

/-!
### Candidate selection queries

A Mongo field is `none` (absent), `some none` (null) or `some (some v)`.
-/

def fieldExists {α : Type} : Option (Option α) → Bool
  | none => false
  | some _ => true

/-- Mongo `{field: null}` equality: matches null and missing values. -/
def fieldIsNull {α : Type} : Option (Option α) → Bool
  | none => true
  | some none => true
  | some (some _) => false

def fieldEqStr (v : String) : Option (Option String) → Bool
  | some (some x) => x == v
  | _ => false

/-- `$gte` on a date field: type-bracketed, null/missing never match. -/
def fieldGte (c : Int) : Option (Option Int) → Bool
  | some (some t) => c ≤ t
  | _ => false

/-- `$lt` on a date field: type-bracketed, null/missing never match. -/
def fieldLtd (c : Int) : Option (Option Int) → Bool
  | some (some t) => t < c
  | _ => false

/-- `{thumbnail_not_found: {$ne: true}}`: matches every document whose
value is not `true`, including null and missing. -/
def fieldNeTrue : Option (Option Bool) → Bool
  | some (some b) => !b
  | _ => true

def leadsWith : List Char → List Char → Bool
  | [], _ => true
  | _ :: _, [] => false
  | p :: ps, c :: cs => p == c && leadsWith ps cs

def containsChars (needle : List Char) : List Char → Bool
  | [] => needle.isEmpty
  | c :: cs => leadsWith needle (c :: cs) || containsChars needle cs

/-- `isGooglePlaceholder` of the recent variant: substring test against the
placeholder hosts. -/
def isGooglePlaceholder (url : String) : Bool :=
  containsChars "googleusercontent.com".data url.data ||
  containsChars "gstatic.com".data url.data ||
  containsChars "google.com/images".data url.data

/-- The case-insensitive placeholder regex of the candidate query applied
to a string. -/
def placeholderRegex (s : String) : Bool :=
  containsChars "googleusercontent.com".data (lowerStr s.data) ||
  containsChars "gstatic.com".data (lowerStr s.data) ||
  containsChars "google.com/images".data (lowerStr s.data)

/-- The regex clause on the `thumbnail` field: a regex matches only string
values. -/
def thumbPlaceholder : Option (Option String) → Bool
  | some (some s) => placeholderRegex s
  | _ => false

structure ThumbDoc where
  created_at : Option (Option Int)
  updated_at : Option (Option Int)
  thumbnail : Option (Option String)
  thumbnail_fetched_at : Option (Option Int)
  thumbnail_not_found : Option (Option Bool)
  deriving Repr, DecidableEq

/-- `$or: [thumbnail $exists false, thumbnail null, thumbnail '']`. -/
def noThumb (d : ThumbDoc) : Bool :=
  !(fieldExists d.thumbnail) || fieldIsNull d.thumbnail ||
    fieldEqStr "" d.thumbnail

/-- The 7-day retry window hard-coded in the full-scan variant's query. -/
def retryWindowMs : Int := 7 * 24 * 60 * 60 * 1000

/-- The full-scan variant's candidate query: no usable thumbnail, and never
processed or last processed more than the retry window ago. -/
def candidateQueryFull (now : Int) (d : ThumbDoc) : Bool :=
  noThumb d &&
  (!(fieldExists d.thumbnail_fetched_at) || fieldIsNull d.thumbnail_fetched_at ||
    fieldLtd (now - retryWindowMs) d.thumbnail_fetched_at)

/-- The recent-articles variant's candidate query: recency window on
`created_at`/`updated_at` (with a never-fetched fallback), no usable or
placeholder thumbnail (clause stated twice in the source), never processed
unless the thumbnail is a placeholder, and not flagged not-found unless the
thumbnail is a placeholder. -/
def candidateQueryRecent (recentCutoff : Int) (d : ThumbDoc) : Bool :=
  (fieldGte recentCutoff d.created_at || fieldGte recentCutoff d.updated_at ||
    (!(fieldExists d.created_at) && !(fieldExists d.updated_at) &&
      !(fieldExists d.thumbnail_fetched_at))) &&
  (noThumb d || thumbPlaceholder d.thumbnail) &&
  (noThumb d || thumbPlaceholder d.thumbnail) &&
  (!(fieldExists d.thumbnail_fetched_at) || fieldIsNull d.thumbnail_fetched_at ||
    thumbPlaceholder d.thumbnail) &&
  (fieldNeTrue d.thumbnail_not_found || thumbPlaceholder d.thumbnail)

/-- C7: an article whose document is flagged `thumbnail_not_found: true` is
excluded by the next backfill run's candidate query — in both variants —
whenever the retry window since its `thumbnail_fetched_at` has not elapsed
and its current thumbnail does not match the placeholder-host pattern. -/
theorem notfound_reprocessing_suppressed (recentCutoff now : Int)
    (d : ThumbDoc) (t : Int)
    (hnf : d.thumbnail_not_found = some (some true))
    (hfetch : d.thumbnail_fetched_at = some (some t))
    (hwin : ¬ t < now - retryWindowMs)
    (hph : thumbPlaceholder d.thumbnail = false) :
    candidateQueryRecent recentCutoff d = false ∧
    candidateQueryFull now d = false := by
  constructor
  · unfold candidateQueryRecent
    simp [fieldNeTrue, hnf, hph]
  · unfold candidateQueryFull
    simp [fieldExists, fieldIsNull, fieldLtd, hfetch, hwin]

def wThumbDoc : ThumbDoc :=
  { created_at := some (some 90), updated_at := some (some 95),
    thumbnail := some none, thumbnail_fetched_at := some (some 95),
    thumbnail_not_found := some (some true) }

/-- Witness: a freshly failed article (fetched at t = 95, now = 100) is
selected by neither query. -/
theorem notfound_reprocessing_suppressed_witness :
    candidateQueryRecent 0 wThumbDoc = false ∧
    candidateQueryFull 100 wThumbDoc = false :=
  notfound_reprocessing_suppressed 0 100 wThumbDoc 95 (by decide) (by decide)
    (by decide) (by decide)

end KalshiStreaming
